import Mathlib

/-!
Verification of the OAGW (Outbound API Gateway) core: a shallow embedding of
the control-plane repositories, route matching, alias validation, GTS
identifier handling, header sanitization and the error mapper, with theorems
checking the natural-language specification against the code.

Conventions of the embedding:
* Rust `String`/`&str` values are embedded as `List Char` (`Str` below), so
  that character-level operations (prefix tests, case mapping, UTF-8 byte
  length) are explicit.
* `uuid::Uuid` values are embedded as natural numbers (`< 2^128` where the
  bound matters); `Uuid::nil()` is `0`.
* `DashMap` stores are embedded as association lists with `insert`
  (replace-or-append), `remove` and `get` mirroring the map API; per-claim
  invariants record key uniqueness where the source relies on it.
* `i32` route priorities are embedded as `Int`; the `i32::MIN` sentinel used
  by `find_matching` is the literal `-2147483648`.
-/

namespace Oagw

/-- Rust strings are embedded as lists of characters. -/
abbrev Str := List Char

deriving instance DecidableEq for Except

/-- Embeds `char::is_ascii_alphanumeric`. -/
def isAsciiAlphanumeric (c : Char) : Bool :=
  ('a' ≤ c && c ≤ 'z') || ('A' ≤ c && c ≤ 'Z') || ('0' ≤ c && c ≤ '9')

/-- UTF-8 encoded byte length of one character (Rust `str::len` counts bytes). -/
def utf8Size (c : Char) : Nat :=
  if c.toNat < 0x80 then 1
  else if c.toNat < 0x800 then 2
  else if c.toNat < 0x10000 then 3
  else 4

/-- UTF-8 byte length of a string, embedding Rust `str::len`. -/
def utf8Len (s : Str) : Nat := (s.map utf8Size).sum

-- ---------------------------------------------------------------------------
-- Association lists (embedding of DashMap stores)
-- ---------------------------------------------------------------------------

/-- `DashMap::get`: first association for the key. -/
def lookupA {α : Type} (l : List (Nat × α)) (k : Nat) : Option α :=
  match l with
  | [] => none
  | (k1, v) :: rest => if k1 = k then some v else lookupA rest k

/-- `DashMap::insert`: replace the existing association or append a new one. -/
def insertA {α : Type} (l : List (Nat × α)) (k : Nat) (v : α) : List (Nat × α) :=
  match l with
  | [] => [(k, v)]
  | (k1, v1) :: rest =>
      if k1 = k then (k, v) :: rest else (k1, v1) :: insertA rest k v

/-- `DashMap::remove`: drop every association for the key. -/
def removeA {α : Type} : List (Nat × α) → Nat → List (Nat × α)
  | [], _ => []
  | (k1, v1) :: rest, k =>
      if k1 = k then removeA rest k else (k1, v1) :: removeA rest k

theorem lookupA_insertA_self {α : Type} (l : List (Nat × α)) (k : Nat) (v : α) :
    lookupA (insertA l k v) k = some v := by
  induction l with
  | nil => simp [insertA, lookupA]
  | cons p rest ih =>
      obtain ⟨k1, v1⟩ := p
      by_cases h : k1 = k <;> simp [insertA, lookupA, h, ih]

theorem lookupA_insertA_ne {α : Type} (l : List (Nat × α)) (k k' : Nat) (v : α)
    (h : k ≠ k') : lookupA (insertA l k v) k' = lookupA l k' := by
  induction l with
  | nil => simp [insertA, lookupA, h]
  | cons p rest ih =>
      obtain ⟨k1, v1⟩ := p
      by_cases h1 : k1 = k <;> simp [insertA, lookupA, h1, ih]
      · subst h1; simp [h, lookupA]

theorem lookupA_removeA_self {α : Type} (l : List (Nat × α)) (k : Nat) :
    lookupA (removeA l k) k = none := by
  induction l with
  | nil => simp [removeA, lookupA]
  | cons p rest ih =>
      obtain ⟨k1, v1⟩ := p
      by_cases h : k1 = k <;> simp [removeA, lookupA, h, ih]

theorem lookupA_removeA_ne {α : Type} (l : List (Nat × α)) (k k' : Nat)
    (h : k ≠ k') : lookupA (removeA l k) k' = lookupA l k' := by
  induction l with
  | nil => simp [removeA, lookupA]
  | cons p rest ih =>
      obtain ⟨k1, v1⟩ := p
      by_cases h1 : k1 = k
      · subst h1; simp [removeA, lookupA, h, ih]
      · by_cases h2 : k1 = k' <;> simp [removeA, lookupA, h1, h2, ih, Ne.symm h]

-- ---------------------------------------------------------------------------
-- Domain error type (src/domain/error.rs)
-- ---------------------------------------------------------------------------

/-- Embeds `DomainError` from `src/domain/error.rs`; payload strings carry the
`detail` / `instance` fields (here named `inst` since `instance` is reserved). -/
inductive DomainError : Type where
  | NotFound (entity : Str) (id : Nat)
  | Conflict (detail : Str)
  | Validation (detail : Str) (inst : Str)
  | UpstreamDisabled (aliasName : Str)
  | Internal (message : Str)
  | MissingTargetHost (inst : Str)
  | InvalidTargetHost (inst : Str)
  | UnknownTargetHost (detail : Str) (inst : Str)
  | AuthenticationFailed (detail : Str) (inst : Str)
  | PayloadTooLarge (detail : Str) (inst : Str)
  | RateLimitExceeded (detail : Str) (inst : Str) (retry_after_secs : Option Nat)
  | SecretNotFound (detail : Str) (inst : Str)
  | DownstreamError (detail : Str) (inst : Str)
  | ProtocolError (detail : Str) (inst : Str)
  | ConnectionTimeout (detail : Str) (inst : Str)
  | RequestTimeout (detail : Str) (inst : Str)
  deriving DecidableEq, Repr

/-- Embeds `http_status_code` from `src/api/rest/error.rs` (statuses as
numeric HTTP codes). -/
def http_status_code (e : DomainError) : Nat :=
  match e with
  | .Validation _ _ => 400
  | .MissingTargetHost _ => 400
  | .InvalidTargetHost _ => 400
  | .UnknownTargetHost _ _ => 400
  | .Conflict _ => 409
  | .AuthenticationFailed _ _ => 401
  | .NotFound _ _ => 404
  | .PayloadTooLarge _ _ => 413
  | .RateLimitExceeded _ _ _ => 429
  | .SecretNotFound _ _ => 500
  | .Internal _ => 500
  | .DownstreamError _ _ => 502
  | .ProtocolError _ _ => 502
  | .UpstreamDisabled _ => 503
  | .ConnectionTimeout _ _ => 504
  | .RequestTimeout _ _ => 504

/-- C4 counterexample: the claim (and the §7 table) assigns status 502 to
`Internal`, but the error mapper returns 500 for it. -/
theorem c4_internal_is_500_not_502 :
    http_status_code (DomainError.Internal "x".data) = 500 ∧
      http_status_code (DomainError.Internal "x".data) ≠ 502 := by
  constructor <;> decide

/-- Claim C4 (corrected): the error mapper assigns Validation → 400,
Conflict → 409, AuthenticationFailed → 401, NotFound → 404,
PayloadTooLarge → 413, RateLimitExceeded → 429, SecretNotFound → 500,
Internal → 500 (not 502 as the table states), DownstreamError → 502,
ProtocolError → 502, UpstreamDisabled → 503, and ConnectionTimeout and
RequestTimeout → 504; the target-host variants map to 400. -/
theorem c4_status_mapping (d i a m : Str) (r : Option Nat) (id : Nat) :
    http_status_code (.Validation d i) = 400 ∧
    http_status_code (.MissingTargetHost i) = 400 ∧
    http_status_code (.InvalidTargetHost i) = 400 ∧
    http_status_code (.UnknownTargetHost d i) = 400 ∧
    http_status_code (.Conflict d) = 409 ∧
    http_status_code (.AuthenticationFailed d i) = 401 ∧
    http_status_code (.NotFound m id) = 404 ∧
    http_status_code (.PayloadTooLarge d i) = 413 ∧
    http_status_code (.RateLimitExceeded d i r) = 429 ∧
    http_status_code (.SecretNotFound d i) = 500 ∧
    http_status_code (.Internal m) = 500 ∧
    http_status_code (.DownstreamError d i) = 502 ∧
    http_status_code (.ProtocolError d i) = 502 ∧
    http_status_code (.UpstreamDisabled a) = 503 ∧
    http_status_code (.ConnectionTimeout d i) = 504 ∧
    http_status_code (.RequestTimeout d i) = 504 := by
  refine ⟨rfl, rfl, rfl, rfl, rfl, rfl, rfl, rfl, rfl, rfl, rfl, rfl, rfl, rfl, rfl, rfl⟩

-- ---------------------------------------------------------------------------
-- Upstream data model (src/domain/model.rs) and alias validation
-- (src/domain/services/management.rs)
-- ---------------------------------------------------------------------------

/-- Embeds `RepositoryError` from `src/domain/repo.rs` (as used by the
repositories; the file itself only declares the trait surface). -/
inductive RepositoryError : Type where
  | NotFound (entity : Str) (id : Nat)
  | Conflict (detail : Str)
  | Internal (message : Str)
  deriving DecidableEq, Repr

/-- Embeds `From<RepositoryError> for DomainError` from `src/domain/error.rs`. -/
def domainOfRepo : RepositoryError → DomainError
  | .NotFound entity id => .NotFound entity id
  | .Conflict detail => .Conflict detail
  | .Internal message => .Internal message

/-- Embeds `Scheme` from `src/domain/model.rs`. -/
inductive Scheme : Type where
  | Http | Https | Wss | Wt | Grpc
  deriving DecidableEq, Repr

/-- Embeds `Endpoint` from `src/domain/model.rs`. -/
structure Endpoint : Type where
  scheme : Scheme
  host : Str
  port : Nat
  deriving DecidableEq, Repr

/-- Embeds `Endpoint::alias_contribution`. -/
def Endpoint.alias_contribution (e : Endpoint) : Str :=
  if e.port = 443 || e.port = 80 then e.host
  else e.host ++ [':'] ++ Nat.toDigits 10 e.port

/-- Embeds `Server` from `src/domain/model.rs`. -/
structure Server : Type where
  endpoints : List Endpoint
  deriving DecidableEq, Repr

/-- Embeds `Upstream` from `src/domain/model.rs`. The `alias` field is named
`aliasName` (`alias` is reserved in Lean). The configuration payload fields
`auth`, `headers`, `plugins`, `rate_limit` and `tags` play no role in any
operation modeled here and are elided. -/
structure Upstream : Type where
  id : Nat
  tenant_id : Nat
  aliasName : Str
  server : Server
  protocol : Str
  enabled : Bool
  deriving DecidableEq, Repr

/-- Embeds `CreateUpstreamRequest` (same field elision as `Upstream`). -/
structure CreateUpstreamRequest : Type where
  server : Server
  protocol : Str
  aliasName : Option Str
  enabled : Bool
  deriving DecidableEq, Repr

/-- Embeds `UpdateUpstreamRequest` (same field elision as `Upstream`). -/
structure UpdateUpstreamRequest : Type where
  server : Option Server
  protocol : Option Str
  aliasName : Option Str
  enabled : Option Bool
  deriving DecidableEq, Repr

/-- Embeds `MAX_ALIAS_LENGTH` from `src/domain/services/management.rs`. -/
def MAX_ALIAS_LENGTH : Nat := 253

/-- The per-character test of `validate_alias`:
`c.is_ascii_alphanumeric() || matches!(c, '.' | ':' | '-' | '_')`. -/
def validAliasChar (c : Char) : Bool :=
  isAsciiAlphanumeric c || c = '.' || c = ':' || c = '-' || c = '_'

/-- Embeds `validate_alias` from `src/domain/services/management.rs`
(`alias.len()` counts UTF-8 bytes; `DomainError::validation` leaves the
`instance` field empty). -/
def validate_alias (a : Str) : Except DomainError Unit :=
  if a = [] then
    .error (.Validation "alias must not be empty".data [])
  else if utf8Len a > MAX_ALIAS_LENGTH then
    .error (.Validation "alias must not exceed 253 characters".data [])
  else if !(a.all validAliasChar) then
    .error (.Validation
      "alias contains invalid characters; only alphanumeric, '.', ':', '-', '_' are allowed".data
      [])
  else .ok ()

/-- The alias character class the spec prescribes, following the spec's words
(`^[a-z0-9._:-]+$`): to be compared against `validAliasChar` from the code. -/
def specAliasAllowedChar (c : Char) : Bool :=
  ('a' ≤ c && c ≤ 'z') || ('0' ≤ c && c ≤ '9') ||
    c = '.' || c = '_' || c = ':' || c = '-'

/-- Embeds `generate_alias` from `src/domain/services/management.rs`. -/
def generate_alias (u : Upstream) : Str :=
  match u.server.endpoints with
  | [] => []
  | e :: _ => e.alias_contribution

/-- Store of the in-memory upstream repository, keyed by id. -/
abbrev UpstreamStore := List (Nat × Upstream)

/-- Modelled from the spec: `InMemoryUpstreamRepo::create`. The upstream
repository implementation is not among the sources (only `route_repo.rs` is);
§4.6 specifies tenant-scoped storage keyed by id with a unique
`(tenant, alias)` constraint whose violation is reported as `Conflict`. -/
def upstreamRepoCreate (store : UpstreamStore) (u : Upstream) :
    Except RepositoryError (Upstream × UpstreamStore) :=
  if ∃ p ∈ store, p.2.tenant_id = u.tenant_id ∧ p.2.aliasName = u.aliasName then
    .error (.Conflict "alias already exists".data)
  else
    .ok (u, insertA store u.id u)

/-- Modelled from the spec: `InMemoryUpstreamRepo::get_by_id` (§4.6:
tenant-scoped lookup, `NotFound` when absent or owned by another tenant). -/
def upstreamRepoGet (store : UpstreamStore) (tenant id : Nat) :
    Except RepositoryError Upstream :=
  match lookupA store id with
  | some u => if u.tenant_id = tenant then .ok u else .error (.NotFound "upstream".data id)
  | none => .error (.NotFound "upstream".data id)

/-- Modelled from the spec: `InMemoryUpstreamRepo::update` (§4.6: requires the
entity to already exist, replaces it). -/
def upstreamRepoUpdate (store : UpstreamStore) (u : Upstream) :
    Except RepositoryError (Upstream × UpstreamStore) :=
  match lookupA store u.id with
  | some _ => .ok (u, insertA store u.id u)
  | none => .error (.NotFound "upstream".data u.id)

/-- The alias that `create_upstream` validates and persists: the supplied one,
or the one generated from the first endpoint
(`req.alias.clone().unwrap_or_else(|| generate_alias(&upstream))`). -/
def effectiveAlias (tenant freshId : Nat) (req : CreateUpstreamRequest) : Str :=
  req.aliasName.getD (generate_alias
    { id := freshId, tenant_id := tenant, aliasName := [],
      server := req.server, protocol := req.protocol, enabled := req.enabled })

/-- Embeds `ControlPlaneServiceImpl::create_upstream` from
`src/domain/services/management.rs`. `tenant` stands for
`ctx.subject_tenant_id()` and `freshId` for the generated `Uuid::new_v4()`. -/
def create_upstream (store : UpstreamStore) (tenant freshId : Nat)
    (req : CreateUpstreamRequest) : Except DomainError (Upstream × UpstreamStore) :=
  let upstream : Upstream :=
    { id := freshId, tenant_id := tenant, aliasName := [],
      server := req.server, protocol := req.protocol, enabled := req.enabled }
  let a := effectiveAlias tenant freshId req
  match validate_alias a with
  | .error e => .error e
  | .ok () =>
      match upstreamRepoCreate store { upstream with aliasName := a } with
      | .ok r => .ok r
      | .error e => .error (domainOfRepo e)

/-- Embeds `ControlPlaneServiceImpl::update_upstream` from
`src/domain/services/management.rs` (partial update over the modeled fields;
`get_by_id` failures are mapped to `DomainError::not_found`). -/
def update_upstream (store : UpstreamStore) (tenant id : Nat)
    (req : UpdateUpstreamRequest) : Except DomainError (Upstream × UpstreamStore) :=
  match upstreamRepoGet store tenant id with
  | .error _ => .error (.NotFound "upstream".data id)
  | .ok existing =>
      let existing := match req.server with
        | some s => { existing with server := s }
        | none => existing
      let existing := match req.protocol with
        | some p => { existing with protocol := p }
        | none => existing
      match req.aliasName with
      | some a =>
          match validate_alias a with
          | .error e => .error e
          | .ok () =>
              let existing := { existing with aliasName := a }
              let existing := match req.enabled with
                | some en => { existing with enabled := en }
                | none => existing
              match upstreamRepoUpdate store existing with
              | .ok r => .ok r
              | .error e => .error (domainOfRepo e)
      | none =>
          let existing := match req.enabled with
            | some en => { existing with enabled := en }
            | none => existing
          match upstreamRepoUpdate store existing with
          | .ok r => .ok r
          | .error e => .error (domainOfRepo e)

theorem validate_alias_error_iff (a : Str) :
    (∃ d i, validate_alias a = .error (.Validation d i)) ↔
      (a = [] ∨ utf8Len a > MAX_ALIAS_LENGTH ∨ ∃ c ∈ a, validAliasChar c = false) := by
  unfold validate_alias
  split_ifs with h1 h2 h3
  · simp [h1]
  · constructor
    · intro _; exact Or.inr (Or.inl h2)
    · intro _; exact ⟨_, _, rfl⟩
  · constructor
    · intro _
      refine Or.inr (Or.inr ?_)
      rw [Bool.not_eq_true'] at h3
      rw [List.all_eq_false] at h3
      rcases h3 with ⟨c, hc, hv⟩
      exact ⟨c, hc, by simpa using hv⟩
    · intro _; exact ⟨_, _, rfl⟩
  · constructor
    · rintro ⟨d, i, h⟩; cases h
    · rintro (h | h | ⟨c, hc, hv⟩)
      · exact absurd h h1
      · exact absurd h h2
      · have h3t : a.all validAliasChar = true := by
          cases ht : a.all validAliasChar
          · rw [ht] at h3; exact absurd rfl h3
          · rfl
        exact absurd (List.all_eq_true.mp h3t c hc) (by simp [hv])

theorem validate_alias_ok_iff (a : Str) :
    validate_alias a = .ok () ↔
      ¬(a = [] ∨ utf8Len a > MAX_ALIAS_LENGTH ∨ ∃ c ∈ a, validAliasChar c = false) := by
  rw [← validate_alias_error_iff]
  unfold validate_alias
  split_ifs <;> simp

/-- C3 counterexample: the claim (after the spec's `^[a-z0-9._:-]+$`) requires
an uppercase alias to be rejected, but the code's `is_ascii_alphanumeric`
check accepts it: `create_upstream` succeeds and persists alias `"A"`. -/
theorem c3_uppercase_alias_accepted :
    specAliasAllowedChar 'A' = false ∧
    validate_alias "A".data = .ok () ∧
    create_upstream [] 1 2
        { server := ⟨[]⟩, protocol := [], aliasName := some "A".data, enabled := true } =
      .ok ({ id := 2, tenant_id := 1, aliasName := "A".data, server := ⟨[]⟩,
             protocol := [], enabled := true },
        [(2, { id := 2, tenant_id := 1, aliasName := "A".data, server := ⟨[]⟩,
               protocol := [], enabled := true })]) := by
  refine ⟨by decide, by rfl, by rfl⟩

/-- Claim C3 (corrected): `create_upstream` (and `update_upstream` when an
alias is supplied) returns a Validation error iff the effective alias is
empty, longer than 253 bytes, or contains a character outside ASCII
alphanumerics (uppercase included, unlike the spec's `^[a-z0-9._:-]+$`) plus
`.`, `:`, `-`, `_`; in particular `/` is rejected but an uppercase letter is
accepted. When validation passes and creation succeeds, the upstream is
persisted with exactly the effective alias. -/
theorem c3_alias_validation (store : UpstreamStore) (tenant freshId : Nat)
    (req : CreateUpstreamRequest) :
    ((∃ d i, create_upstream store tenant freshId req = .error (.Validation d i)) ↔
      (effectiveAlias tenant freshId req = [] ∨
        utf8Len (effectiveAlias tenant freshId req) > MAX_ALIAS_LENGTH ∨
        ∃ c ∈ effectiveAlias tenant freshId req, validAliasChar c = false)) ∧
    validAliasChar '/' = false ∧ validAliasChar 'A' = true ∧
    (∀ u st, create_upstream store tenant freshId req = .ok (u, st) →
      u.aliasName = effectiveAlias tenant freshId req ∧ lookupA st u.id = some u) ∧
    (∀ (id : Nat) (ureq : UpdateUpstreamRequest) (a2 : Str),
      ureq.aliasName = some a2 →
      (∃ ex, upstreamRepoGet store tenant id = .ok ex) →
      (((∃ d i, update_upstream store tenant id ureq = .error (.Validation d i)) ↔
        (a2 = [] ∨ utf8Len a2 > MAX_ALIAS_LENGTH ∨ ∃ c ∈ a2, validAliasChar c = false)) ∧
       (∀ u st, update_upstream store tenant id ureq = .ok (u, st) → u.aliasName = a2))) := by
  refine ⟨?_, by decide, by decide, ?_, ?_⟩
  · rw [← validate_alias_error_iff]
    simp only [create_upstream]
    cases h : validate_alias (effectiveAlias tenant freshId req) with
    | error e =>
        have he : ∃ d i, e = DomainError.Validation d i := by
          revert h; unfold validate_alias; split_ifs <;> intro h <;> cases h
          · exact ⟨_, _, rfl⟩
          · exact ⟨_, _, rfl⟩
          · exact ⟨_, _, rfl⟩
        rcases he with ⟨d, i, rfl⟩
        constructor
        · intro _; exact ⟨d, i, rfl⟩
        · intro _; exact ⟨d, i, rfl⟩
    | ok u =>
        constructor
        · rintro ⟨d, i, hdi⟩
          revert hdi
          cases hrc : upstreamRepoCreate store _ with
          | ok r => intro hdi; cases hdi
          | error e =>
              cases e <;> intro hdi <;> simp [domainOfRepo] at hdi
        · rintro ⟨d, i, hdi⟩
          exact Except.noConfusion hdi
  · intro u st hok
    revert hok
    simp only [create_upstream]
    cases h : validate_alias (effectiveAlias tenant freshId req) with
    | error e => intro hok; cases hok
    | ok uu =>
        cases hrc : upstreamRepoCreate store _ with
        | error e => intro hok; cases hok
        | ok r =>
            intro hok
            cases hok
            revert hrc
            unfold upstreamRepoCreate
            split_ifs with hc
            · intro hrc; cases hrc
            · intro hrc
              cases hrc
              exact ⟨rfl, lookupA_insertA_self _ _ _⟩
  · rintro id ureq a2 ha ⟨ex, hex⟩
    obtain ⟨sv, pr, al, en⟩ := ureq
    have ha2 : al = some a2 := ha
    subst ha2
    simp only [update_upstream, hex]
    cases h : validate_alias a2 with
    | error e =>
        have he : ∃ d i, e = DomainError.Validation d i := by
          revert h; unfold validate_alias; split_ifs <;> intro h <;> cases h
          · exact ⟨_, _, rfl⟩
          · exact ⟨_, _, rfl⟩
          · exact ⟨_, _, rfl⟩
        rcases he with ⟨d, i, rfl⟩
        constructor
        · rw [← validate_alias_error_iff]
          constructor
          · intro _; exact ⟨d, i, h⟩
          · intro _; exact ⟨d, i, rfl⟩
        · intro u st hok; exact Except.noConfusion hok
    | ok uu =>
        constructor
        · rw [← validate_alias_error_iff]
          constructor
          · rintro ⟨d, i, hdi⟩
            revert hdi
            cases hru : upstreamRepoUpdate store _ with
            | ok r => intro hdi; cases hdi
            | error e => cases e <;> intro hdi <;> simp [domainOfRepo] at hdi
          · rintro ⟨d, i, hdi⟩
            rw [h] at hdi
            exact Except.noConfusion hdi
        · intro u st hok
          revert hok
          cases hru : upstreamRepoUpdate store _ with
          | error e => intro hok; cases hok
          | ok r =>
              intro hok
              cases hok
              revert hru
              unfold upstreamRepoUpdate
              cases lookupA store _ with
              | some _ =>
                  intro hru; cases hru
                  cases sv <;> cases pr <;> cases en <;> rfl
              | none => intro hru; cases hru

theorem c3_alias_validation_witness :
    (∃ d i, create_upstream [] 1 2
        { server := ⟨[]⟩, protocol := [], aliasName := some "a/b".data, enabled := true } =
      .error (.Validation d i)) ∧
    (∃ d i, update_upstream
        [(5, { id := 5, tenant_id := 1, aliasName := "x".data, server := ⟨[]⟩,
               protocol := [], enabled := true })] 1 5
        { server := none, protocol := none, aliasName := some [], enabled := none } =
      .error (.Validation d i)) := by
  constructor
  · exact (c3_alias_validation [] 1 2
      { server := ⟨[]⟩, protocol := [], aliasName := some "a/b".data, enabled := true }).1.mpr
      (Or.inr (Or.inr ⟨'/', by decide, by decide⟩))
  · exact ((c3_alias_validation
      [(5, { id := 5, tenant_id := 1, aliasName := "x".data, server := ⟨[]⟩,
             protocol := [], enabled := true })] 1 0
      { server := ⟨[]⟩, protocol := [], aliasName := none, enabled := true }).2.2.2.2
      5 { server := none, protocol := none, aliasName := some [], enabled := none } [] rfl
      ⟨_, by rfl⟩).1.mpr (Or.inl rfl)

-- ---------------------------------------------------------------------------
-- GTS identifiers (src/domain/gts_helpers.rs, src/api/rest/extractors.rs)
-- ---------------------------------------------------------------------------

/-- Lowercase hex digit character for a value below 16, as used by the `uuid`
crate when rendering the simple form. -/
def hexDigitChar (n : Nat) : Char :=
  if n < 10 then Char.ofNat ('0'.toNat + n) else Char.ofNat ('a'.toNat + (n - 10))

/-- Value of a hex digit character (the `uuid` crate accepts both cases). -/
def hexVal (c : Char) : Option Nat :=
  if '0' ≤ c ∧ c ≤ '9' then some (c.toNat - '0'.toNat)
  else if 'a' ≤ c ∧ c ≤ 'f' then some (c.toNat - 'a'.toNat + 10)
  else if 'A' ≤ c ∧ c ≤ 'F' then some (c.toNat - 'A'.toNat + 10)
  else none

/-- `n` hex digits of `u`, most significant first. -/
def toHexBE : Nat → Nat → Str
  | 0, _ => []
  | n + 1, u => toHexBE n (u / 16) ++ [hexDigitChar (u % 16)]

/-- Big-endian hex parse with accumulator; `none` on any non-hex character. -/
def parseHex : Str → Nat → Option Nat
  | [], acc => some acc
  | c :: rest, acc =>
      match hexVal c with
      | some d => parseHex rest (acc * 16 + d)
      | none => none

/-- Models `uuid::Uuid::as_simple` rendering: 32 lowercase hex characters
without dashes (UUIDs are embedded as naturals below `2^128`). -/
def uuidSimple (u : Nat) : Str := toHexBE 32 u

/-- The hyphenated rendering of a UUID (hex digit groups 8-4-4-4-12; the
groups hold the same digits as `uuidSimple`, see `uuidHyphenated_strips`). -/
def uuidHyphenated (u : Nat) : Str :=
  toHexBE 8 (u / 16 ^ 24) ++ ('-' :: (toHexBE 4 (u / 16 ^ 20) ++
    ('-' :: (toHexBE 4 (u / 16 ^ 16) ++ ('-' :: (toHexBE 4 (u / 16 ^ 12) ++
    ('-' :: toHexBE 12 u)))))))

/-- Strip the four hyphens of the hyphenated UUID shape 8-4-4-4-12 (dashes at
positions 8, 13, 18, 23 of a 36-character string), returning the 32
hex-position characters; `none` when the string lacks that shape. -/
def stripHyphens (s : Str) : Option Str :=
  if s.length = 36 ∧ (s.drop 8).head? = some '-' ∧ (s.drop 13).head? = some '-' ∧
      (s.drop 18).head? = some '-' ∧ (s.drop 23).head? = some '-' then
    some (s.take 8 ++ (s.drop 9).take 4 ++ (s.drop 14).take 4 ++
      (s.drop 19).take 4 ++ s.drop 24)
  else none

/-- Models `uuid::Uuid::parse_str` restricted to the two input shapes the spec
names (simple 32-hex and hyphenated 8-4-4-4-12); the crate's additional
`urn:`/braced shapes play no role in any claim. -/
def parseUuid (s : Str) : Option Nat :=
  if s.length = 32 then parseHex s 0
  else
    match stripHyphens s with
    | some hex => parseHex hex 0
    | none => none

/-- Characters allowed inside a GTS schema segment. -/
def gtsSegChar (c : Char) : Bool :=
  ('a' ≤ c && c ≤ 'z') || ('0' ≤ c && c ≤ '9') || c = '_'

/-- `true` when no `.`-separated segment of the string is empty. -/
def noEmptySeg : Str → Bool
  | [] => true
  | ['.'] => false
  | '.' :: '.' :: _ => false
  | _ :: rest => noEmptySeg rest

/-- Modelled from the spec: the schema validation done by the external `gts`
crate (`gts::GtsID::new` applied to the schema slice ending in `~`). The crate
is outside this repository; §6 fixes the schema identifiers in use, which this
grammar accepts: `gts.` followed by non-empty dot-separated segments of
lowercase ASCII alphanumerics and `_`, terminated by a single `~`. -/
def gtsSchemaValid (s : Str) : Bool :=
  match s.getLast? with
  | some '~' =>
      let body := s.dropLast
      "gts.".data.isPrefixOf body &&
        body.all (fun c => gtsSegChar c || c = '.') &&
        (match body with
         | [] => false
         | c :: _ => c ≠ '.') &&
        noEmptySeg body
  | _ => false

/-- Last index of `c` in `s`, embedding `str::rfind`. -/
def rfindIdx (c : Char) : Str → Option Nat
  | [] => none
  | x :: xs =>
      match rfindIdx c xs with
      | some i => some (i + 1)
      | none => if x = c then some 0 else none

/-- Embeds `UPSTREAM_SCHEMA` from `src/domain/gts_helpers.rs`. -/
def UPSTREAM_SCHEMA : Str := "gts.x.core.oagw.upstream.v1~".data

/-- Embeds `ROUTE_SCHEMA` from `src/domain/gts_helpers.rs`. -/
def ROUTE_SCHEMA : Str := "gts.x.core.oagw.route.v1~".data

/-- Embeds `format_upstream_gts` from `src/domain/gts_helpers.rs`. -/
def format_upstream_gts (id : Nat) : Str := UPSTREAM_SCHEMA ++ uuidSimple id

/-- Embeds `format_route_gts` from `src/domain/gts_helpers.rs`. -/
def format_route_gts (id : Nat) : Str := ROUTE_SCHEMA ++ uuidSimple id

/-- Embeds `parse_resource_gts` from `src/domain/gts_helpers.rs` (interpolated
error message details are abbreviated to fixed texts; the `instance` field
carries the input string as in the source). -/
def parse_resource_gts (s : Str) : Except DomainError (Str × Nat) :=
  match rfindIdx '~' s with
  | none => .error (.Validation "missing tilde separator in GTS identifier".data s)
  | some tilde_pos =>
      let schema_with_tilde := s.take (tilde_pos + 1)
      let inst := s.drop (tilde_pos + 1)
      if gtsSchemaValid schema_with_tilde then
        match parseUuid inst with
        | some u => .ok (s.take tilde_pos, u)
        | none => .error (.Validation "invalid UUID in GTS instance".data s)
      else .error (.Validation "invalid GTS schema".data s)

/-- Embeds `parse_gts_id` from `src/api/rest/extractors.rs`: the schema
component returned by `parse_resource_gts` is discarded (`let (_, uuid) = …`);
this one function serves both upstream and route management handlers. -/
def parse_gts_id (s : Str) : Except DomainError Nat :=
  match parse_resource_gts s with
  | .ok (_, u) => .ok u
  | .error e => .error e

theorem toHexBE_length (n u : Nat) : (toHexBE n u).length = n := by
  induction n generalizing u with
  | zero => rfl
  | succ n ih => simp [toHexBE, ih]

theorem hexVal_hexDigitChar (d : Nat) (hd : d < 16) :
    hexVal (hexDigitChar d) = some d := by
  interval_cases d <;> decide

theorem mem_toHexBE_isHex (n u : Nat) (c : Char) (hc : c ∈ toHexBE n u) :
    (hexVal c).isSome ∧ c ≠ '-' ∧ c ≠ '~' := by
  induction n generalizing u with
  | zero => cases hc
  | succ n ih =>
      simp only [toHexBE, List.mem_append, List.mem_singleton] at hc
      rcases hc with hc | hc
      · exact ih _ hc
      · subst hc
        have h16 : u % 16 < 16 := Nat.mod_lt _ (by omega)
        refine ⟨by rw [hexVal_hexDigitChar _ h16]; rfl, ?_, ?_⟩ <;>
          interval_cases h : (u % 16) <;> decide

theorem parseHex_append (xs ys : Str) (acc : Nat) :
    parseHex (xs ++ ys) acc =
      match parseHex xs acc with
      | some a => parseHex ys a
      | none => none := by
  induction xs generalizing acc with
  | nil => simp [parseHex]
  | cons c rest ih =>
      simp only [List.cons_append, parseHex]
      cases hexVal c with
      | some d => exact ih _
      | none => rfl

theorem parseHex_toHexBE (n u acc : Nat) :
    parseHex (toHexBE n u) acc = some (acc * 16 ^ n + u % 16 ^ n) := by
  induction n generalizing u acc with
  | zero => simp [toHexBE, parseHex, Nat.mod_one]
  | succ n ih =>
      rw [toHexBE, parseHex_append, ih]
      have h16 : u % 16 < 16 := Nat.mod_lt _ (by omega)
      simp only [parseHex, hexVal_hexDigitChar _ h16]
      congr 1
      have hmod : u % (16 ^ n * 16) = u % 16 + 16 * (u / 16 % 16 ^ n) := by
        calc u % (16 ^ n * 16) = u % (16 * 16 ^ n) := by ring_nf
        _ = u % 16 + 16 * (u / 16 % 16 ^ n) := Nat.mod_mul
      have hpow : (16 : Nat) ^ (n + 1) = 16 ^ n * 16 := by ring
      rw [hpow, hmod]
      ring

theorem parseUuid_uuidSimple (u : Nat) (hu : u < 2 ^ 128) :
    parseUuid (uuidSimple u) = some u := by
  have hlen : (uuidSimple u).length = 32 := toHexBE_length 32 u
  unfold parseUuid
  rw [if_pos hlen]
  show parseHex (toHexBE 32 u) 0 = some u
  rw [parseHex_toHexBE]
  have h128 : (16 : Nat) ^ 32 = 2 ^ 128 := by norm_num
  rw [Nat.zero_mul, Nat.zero_add, h128, Nat.mod_eq_of_lt hu]

theorem toHexBE_append (m n u : Nat) :
    toHexBE (m + n) u = toHexBE m (u / 16 ^ n) ++ toHexBE n u := by
  induction n generalizing u with
  | zero => simp [toHexBE]
  | succ n ih =>
      have h1 : m + (n + 1) = (m + n) + 1 := by omega
      rw [h1, toHexBE, ih, toHexBE, List.append_assoc, Nat.div_div_eq_div_mul]
      have h2 : (16 : Nat) * 16 ^ n = 16 ^ (n + 1) := by ring
      rw [h2]

theorem uuidSimple_eq_groups (u : Nat) :
    uuidSimple u = toHexBE 8 (u / 16 ^ 24) ++ (toHexBE 4 (u / 16 ^ 20) ++
      (toHexBE 4 (u / 16 ^ 16) ++ (toHexBE 4 (u / 16 ^ 12) ++ toHexBE 12 u))) := by
  have h1 : toHexBE 32 u = toHexBE 8 (u / 16 ^ 24) ++ toHexBE 24 u := toHexBE_append 8 24 u
  have h2 : toHexBE 24 u = toHexBE 4 (u / 16 ^ 20) ++ toHexBE 20 u := toHexBE_append 4 20 u
  have h3 : toHexBE 20 u = toHexBE 4 (u / 16 ^ 16) ++ toHexBE 16 u := toHexBE_append 4 16 u
  have h4 : toHexBE 16 u = toHexBE 4 (u / 16 ^ 12) ++ toHexBE 12 u := toHexBE_append 4 12 u
  rw [uuidSimple, h1, h2, h3, h4]

theorem stripHyphens_shape (g1 g2 g3 g4 g5 : Str)
    (h1 : g1.length = 8) (h2 : g2.length = 4) (h3 : g3.length = 4)
    (h4 : g4.length = 4) (h5 : g5.length = 12) :
    stripHyphens (g1 ++ ('-' :: (g2 ++ ('-' :: (g3 ++ ('-' :: (g4 ++ ('-' :: g5)))))))) =
      some (g1 ++ (g2 ++ (g3 ++ (g4 ++ g5)))) := by
  set s : Str := g1 ++ ('-' :: (g2 ++ ('-' :: (g3 ++ ('-' :: (g4 ++ ('-' :: g5)))))))
    with hs
  have d8 : s.drop 8 = '-' :: (g2 ++ ('-' :: (g3 ++ ('-' :: (g4 ++ ('-' :: g5)))))) := by
    rw [hs]; exact List.drop_left' h1
  have d9 : s.drop 9 = g2 ++ ('-' :: (g3 ++ ('-' :: (g4 ++ ('-' :: g5))))) := by
    have hd : s.drop 9 = (s.drop 8).drop 1 := by rw [List.drop_drop]
    rw [hd, d8]; rfl
  have d13 : s.drop 13 = '-' :: (g3 ++ ('-' :: (g4 ++ ('-' :: g5)))) := by
    have hd : s.drop 13 = (s.drop 9).drop 4 := by rw [List.drop_drop]
    rw [hd, d9]; exact List.drop_left' h2
  have d14 : s.drop 14 = g3 ++ ('-' :: (g4 ++ ('-' :: g5))) := by
    have hd : s.drop 14 = (s.drop 13).drop 1 := by rw [List.drop_drop]
    rw [hd, d13]; rfl
  have d18 : s.drop 18 = '-' :: (g4 ++ ('-' :: g5)) := by
    have hd : s.drop 18 = (s.drop 14).drop 4 := by rw [List.drop_drop]
    rw [hd, d14]; exact List.drop_left' h3
  have d19 : s.drop 19 = g4 ++ ('-' :: g5) := by
    have hd : s.drop 19 = (s.drop 18).drop 1 := by rw [List.drop_drop]
    rw [hd, d18]; rfl
  have d23 : s.drop 23 = '-' :: g5 := by
    have hd : s.drop 23 = (s.drop 19).drop 4 := by rw [List.drop_drop]
    rw [hd, d19]; exact List.drop_left' h4
  have d24 : s.drop 24 = g5 := by
    have hd : s.drop 24 = (s.drop 23).drop 1 := by rw [List.drop_drop]
    rw [hd, d23]; rfl
  have hlen : s.length = 36 := by
    rw [hs]; simp [List.length_append, h1, h2, h3, h4, h5]
  unfold stripHyphens
  rw [if_pos ⟨hlen, by rw [d8]; rfl, by rw [d13]; rfl, by rw [d18]; rfl, by rw [d23]; rfl⟩]
  congr 1
  rw [show s.take 8 = g1 from by rw [hs]; exact List.take_left' h1,
    d9, d14, d19, d24,
    List.take_append_of_le_length (by omega), List.take_of_length_le (by omega),
    List.take_append_of_le_length (by omega), List.take_of_length_le (by omega),
    List.take_append_of_le_length (by omega), List.take_of_length_le (by omega)]
  simp [List.append_assoc]

theorem parseUuid_uuidHyphenated (u : Nat) (hu : u < 2 ^ 128) :
    parseUuid (uuidHyphenated u) = some u := by
  have hstrip : stripHyphens (uuidHyphenated u) = some (uuidSimple u) := by
    rw [uuidHyphenated, uuidSimple_eq_groups u]
    exact stripHyphens_shape _ _ _ _ _ (toHexBE_length _ _) (toHexBE_length _ _)
      (toHexBE_length _ _) (toHexBE_length _ _) (toHexBE_length _ _)
  have hlen : (uuidHyphenated u).length = 36 := by
    rw [uuidHyphenated]
    simp [List.length_append, toHexBE_length]
  unfold parseUuid
  rw [if_neg (by omega), hstrip]
  show parseHex (toHexBE 32 u) 0 = some u
  rw [parseHex_toHexBE]
  have h128 : (16 : Nat) ^ 32 = 2 ^ 128 := by norm_num
  rw [Nat.zero_mul, Nat.zero_add, h128, Nat.mod_eq_of_lt hu]

theorem not_tilde_mem_uuidSimple (u : Nat) : '~' ∉ uuidSimple u := fun h =>
  (mem_toHexBE_isHex 32 u '~' h).2.2 rfl

theorem not_tilde_mem_uuidHyphenated (u : Nat) : '~' ∉ uuidHyphenated u := by
  have hfalse : ∀ n v : Nat, '~' ∉ toHexBE n v := fun n v h =>
    (mem_toHexBE_isHex n v '~' h).2.2 rfl
  rw [uuidHyphenated]
  simp only [List.mem_append, List.mem_cons, not_or]
  exact ⟨hfalse _ _, by decide, hfalse _ _, by decide, hfalse _ _, by decide,
    hfalse _ _, by decide, hfalse _ _⟩

theorem rfindIdx_eq_none (c : Char) (l : Str) (h : c ∉ l) : rfindIdx c l = none := by
  induction l with
  | nil => rfl
  | cons x xs ih =>
      simp only [List.mem_cons, not_or] at h
      rw [rfindIdx, ih h.2]
      simp [Ne.symm h.1]

theorem rfindIdx_append_of_none (c : Char) (xs ys : Str) (h : rfindIdx c ys = none) :
    rfindIdx c (xs ++ ys) = rfindIdx c xs := by
  induction xs with
  | nil => simpa using h
  | cons x xs ih => rw [List.cons_append, rfindIdx, ih, rfindIdx]

theorem parse_resource_gts_append_ok (sch inst : Str) (u k : Nat)
    (hr : rfindIdx '~' sch = some k) (hk : sch.length = k + 1)
    (hninst : '~' ∉ inst) (hv : gtsSchemaValid sch = true)
    (hu : parseUuid inst = some u) :
    parse_resource_gts (sch ++ inst) = .ok (sch.take k, u) := by
  have hr2 : rfindIdx '~' (sch ++ inst) = some k := by
    rw [rfindIdx_append_of_none _ _ _ (rfindIdx_eq_none _ _ hninst)]; exact hr
  unfold parse_resource_gts
  rw [hr2]
  show (if gtsSchemaValid ((sch ++ inst).take (k + 1)) = true then
      match parseUuid ((sch ++ inst).drop (k + 1)) with
      | some u2 => Except.ok ((sch ++ inst).take k, u2)
      | none => Except.error
          (DomainError.Validation "invalid UUID in GTS instance".data (sch ++ inst))
    else Except.error
      (DomainError.Validation "invalid GTS schema".data (sch ++ inst))) =
    Except.ok (sch.take k, u)
  rw [List.take_left' hk, List.drop_left' hk, hu, if_pos hv,
    List.take_append_of_le_length (by omega)]

/-- Claim C8 (confirmed): formatted external identifiers round-trip through
`parse_resource_gts` for both entity kinds, returning the original UUID, and
the formatters emit the instance in the simple 32-hex form without dashes. -/
theorem c8_gts_round_trip (u : Nat) (hu : u < 2 ^ 128) :
    parse_resource_gts (format_upstream_gts u) =
      .ok ("gts.x.core.oagw.upstream.v1".data, u) ∧
    parse_resource_gts (format_route_gts u) =
      .ok ("gts.x.core.oagw.route.v1".data, u) ∧
    format_upstream_gts u = UPSTREAM_SCHEMA ++ uuidSimple u ∧
    format_route_gts u = ROUTE_SCHEMA ++ uuidSimple u ∧
    (uuidSimple u).length = 32 ∧
    (∀ c ∈ uuidSimple u, (hexVal c).isSome ∧ c ≠ '-') := by
  refine ⟨?_, ?_, rfl, rfl, toHexBE_length 32 u,
    fun c hc => ⟨(mem_toHexBE_isHex 32 u c hc).1, (mem_toHexBE_isHex 32 u c hc).2.1⟩⟩
  · have h := parse_resource_gts_append_ok UPSTREAM_SCHEMA (uuidSimple u) u 27
      (by decide) (by decide) (not_tilde_mem_uuidSimple u) (by decide)
      (parseUuid_uuidSimple u hu)
    rw [show UPSTREAM_SCHEMA.take 27 = "gts.x.core.oagw.upstream.v1".data by decide] at h
    exact h
  · have h := parse_resource_gts_append_ok ROUTE_SCHEMA (uuidSimple u) u 24
      (by decide) (by decide) (not_tilde_mem_uuidSimple u) (by decide)
      (parseUuid_uuidSimple u hu)
    rw [show ROUTE_SCHEMA.take 24 = "gts.x.core.oagw.route.v1".data by decide] at h
    exact h

theorem c8_gts_round_trip_witness :
    parse_resource_gts (format_upstream_gts 3) =
      .ok ("gts.x.core.oagw.upstream.v1".data, 3) :=
  (c8_gts_round_trip 3 (by norm_num)).1

/-- C5 counterexample: the claim requires the management API to reject, with a
Validation error, an identifier whose schema prefix addresses the wrong
entity; but `parse_gts_id` — the one parser shared by the upstream and route
handlers — accepts a route-schema identifier and returns its UUID (the schema
returned by `parse_resource_gts` is discarded, so upstream endpoints accept
route identifiers). -/
theorem c5_wrong_schema_not_rejected :
    parse_gts_id (format_route_gts 7) = .ok 7 := by decide

/-- Claim C5 (corrected): the shared external identifier parser accepts a GTS
identifier whose instance part is a simple 32-hex UUID or a hyphenated UUID,
returning that UUID, for any syntactically valid GTS schema prefix — the
schema is never compared against the addressed entity, so upstream endpoints
accept `gts.x.core.oagw.route.v1~` identifiers and vice versa. -/
theorem c5_parser_accepts_uuid_forms_any_schema (u : Nat) (hu : u < 2 ^ 128) :
    parse_gts_id (UPSTREAM_SCHEMA ++ uuidSimple u) = .ok u ∧
    parse_gts_id (UPSTREAM_SCHEMA ++ uuidHyphenated u) = .ok u ∧
    parse_gts_id (ROUTE_SCHEMA ++ uuidSimple u) = .ok u ∧
    parse_gts_id (ROUTE_SCHEMA ++ uuidHyphenated u) = .ok u := by
  refine ⟨?_, ?_, ?_, ?_⟩ <;> unfold parse_gts_id
  · rw [parse_resource_gts_append_ok UPSTREAM_SCHEMA (uuidSimple u) u 27
      (by decide) (by decide) (not_tilde_mem_uuidSimple u) (by decide)
      (parseUuid_uuidSimple u hu)]
  · rw [parse_resource_gts_append_ok UPSTREAM_SCHEMA (uuidHyphenated u) u 27
      (by decide) (by decide) (not_tilde_mem_uuidHyphenated u) (by decide)
      (parseUuid_uuidHyphenated u hu)]
  · rw [parse_resource_gts_append_ok ROUTE_SCHEMA (uuidSimple u) u 24
      (by decide) (by decide) (not_tilde_mem_uuidSimple u) (by decide)
      (parseUuid_uuidSimple u hu)]
  · rw [parse_resource_gts_append_ok ROUTE_SCHEMA (uuidHyphenated u) u 24
      (by decide) (by decide) (not_tilde_mem_uuidHyphenated u) (by decide)
      (parseUuid_uuidHyphenated u hu)]

theorem c5_parser_accepts_uuid_forms_witness :
    parse_gts_id (ROUTE_SCHEMA ++ uuidHyphenated 9) = .ok 9 :=
  (c5_parser_accepts_uuid_forms_any_schema 9 (by norm_num)).2.2.2

-- ---------------------------------------------------------------------------
-- Route data model and in-memory route repository
-- (src/domain/model.rs, src/infra/storage/route_repo.rs)
-- ---------------------------------------------------------------------------

/-- Embeds `HttpMethod` from `src/domain/model.rs`. -/
inductive HttpMethod : Type where
  | Get | Post | Put | Delete | Patch
  deriving DecidableEq, Repr

/-- Embeds `PathSuffixMode` from `src/domain/model.rs`. -/
inductive PathSuffixMode : Type where
  | Disabled | Append
  deriving DecidableEq, Repr

/-- Embeds `HttpMatch` from `src/domain/model.rs`. -/
structure HttpMatch : Type where
  methods : List HttpMethod
  path : Str
  query_allowlist : List Str
  path_suffix_mode : PathSuffixMode
  deriving DecidableEq, Repr

/-- Embeds `GrpcMatch` from `src/domain/model.rs` (the `method` field is named
`methodName`; `method` would shadow too easily). -/
structure GrpcMatch : Type where
  service : Str
  methodName : Str
  deriving DecidableEq, Repr

/-- Embeds `MatchRules` from `src/domain/model.rs`. -/
structure MatchRules : Type where
  http : Option HttpMatch
  grpc : Option GrpcMatch
  deriving DecidableEq, Repr

/-- Embeds `Route` from `src/domain/model.rs`; the configuration payload
fields `plugins`, `rate_limit` and `tags` play no role in the repository
operations and are elided. `priority` is an `i32`, embedded as `Int`. -/
structure Route : Type where
  id : Nat
  tenant_id : Nat
  upstream_id : Nat
  match_rules : MatchRules
  priority : Int
  enabled : Bool
  deriving DecidableEq, Repr

/-- ASCII uppercasing of one character; models `str::to_uppercase` on the
ASCII method strings the HTTP layer produces. -/
def upperChar (c : Char) : Char :=
  if 'a' ≤ c && c ≤ 'z' then Char.ofNat (c.toNat - 32) else c

/-- Embeds `parse_method` from `src/infra/storage/route_repo.rs`. -/
def parse_method (s : Str) : Option HttpMethod :=
  let u := s.map upperChar
  if u = "GET".data then some .Get
  else if u = "POST".data then some .Post
  else if u = "PUT".data then some .Put
  else if u = "DELETE".data then some .Delete
  else if u = "PATCH".data then some .Patch
  else none

/-- Embeds `InMemoryRouteRepo`: the primary store (`route_id → Route`) and the
upstream index (`upstream_id → Vec<route_id>`). -/
structure RouteRepo : Type where
  store : List (Nat × Route)
  upstream_index : List (Nat × List Nat)
  deriving DecidableEq, Repr

/-- The empty repository (`InMemoryRouteRepo::new`). -/
def RouteRepo.empty : RouteRepo := { store := [], upstream_index := [] }

/-- Index lookup with the `unwrap_or_default` of the source: ids registered
for an upstream, or `[]`. -/
def idxGet (s : RouteRepo) (u : Nat) : List Nat :=
  (lookupA s.upstream_index u).getD []

/-- `upstream_index.entry(upstream_id).or_default().push(route_id)`. -/
def pushIdx (idx : List (Nat × List Nat)) (u id : Nat) : List (Nat × List Nat) :=
  match lookupA idx u with
  | some ids => insertA idx u (ids ++ [id])
  | none => insertA idx u [id]

/-- Embeds `InMemoryRouteRepo::create` (always returns `Ok(route)`; the new
repository state is the interesting part). -/
def RouteRepo.create (s : RouteRepo) (r : Route) : RouteRepo :=
  { store := insertA s.store r.id r,
    upstream_index := pushIdx s.upstream_index r.upstream_id r.id }

/-- Embeds `InMemoryRouteRepo::get_by_id`. -/
def RouteRepo.get_by_id (s : RouteRepo) (tenant id : Nat) :
    Except RepositoryError Route :=
  match lookupA s.store id with
  | some r =>
      if r.tenant_id = tenant then .ok r else .error (.NotFound "route".data id)
  | none => .error (.NotFound "route".data id)

/-- Embeds `InMemoryRouteRepo::list_by_upstream` (`top`/`skip` from
`ListQuery`; routes are collected from the index, tenant-filtered, sorted by
id, then paginated). -/
def RouteRepo.list_by_upstream (s : RouteRepo) (tenant upstream : Nat)
    (top skip : Nat) : List Route :=
  let route_ids := idxGet s upstream
  let routes := route_ids.filterMap (fun id =>
    match lookupA s.store id with
    | some r => if r.tenant_id = tenant then some r else none
    | none => none)
  let sorted := routes.mergeSort (fun a b => a.id ≤ b.id)
  (sorted.drop skip).take top

/-- `i32::MIN`, the initial `best_priority` sentinel of `find_matching`. -/
def i32min : Int := -2147483648

/-- The `continue` guards of the `find_matching` loop body: tenant match,
enabled, HTTP rules present, parsed method contained in `methods`, request
path starts with the rule path. Returns the `HttpMatch` when all pass. -/
def routeCand (tenant : Nat) (reqMethod : Option HttpMethod) (path : Str)
    (route : Route) : Option HttpMatch :=
  if route.tenant_id ≠ tenant then none
  else if !route.enabled then none
  else
    match route.match_rules.http with
    | none => none
    | some hm =>
        match reqMethod with
        | none => none
        | some m =>
            if !(hm.methods.contains m) then none
            else if !(hm.path.isPrefixOf path) then none
            else some hm

/-- The selection loop of `find_matching`, carrying `best`, `best_path_len`
and `best_priority`; `path_len` is the byte length of the rule path
(`http_match.path.len()`). -/
def findLoop (s : RouteRepo) (tenant : Nat) (reqMethod : Option HttpMethod)
    (path : Str) : List Nat → Option Route → Nat → Int → Option Route
  | [], best, _, _ => best
  | id :: ids, best, bestLen, bestPrio =>
      match lookupA s.store id with
      | none => findLoop s tenant reqMethod path ids best bestLen bestPrio
      | some route =>
          match routeCand tenant reqMethod path route with
          | none => findLoop s tenant reqMethod path ids best bestLen bestPrio
          | some hm =>
              if bestLen < utf8Len hm.path ∨
                  (utf8Len hm.path = bestLen ∧ bestPrio < route.priority) then
                findLoop s tenant reqMethod path ids (some route)
                  (utf8Len hm.path) route.priority
              else findLoop s tenant reqMethod path ids best bestLen bestPrio

/-- Embeds `InMemoryRouteRepo::find_matching` (`Uuid::nil()` is `0`). -/
def RouteRepo.find_matching (s : RouteRepo) (tenant upstream : Nat)
    (method path : Str) : Except RepositoryError Route :=
  match findLoop s tenant (parse_method method) path (idxGet s upstream)
      none 0 i32min with
  | some r => .ok r
  | none => .error (.NotFound "route".data 0)

/-- Embeds `InMemoryRouteRepo::update`. -/
def RouteRepo.update (s : RouteRepo) (r : Route) :
    Except RepositoryError (Route × RouteRepo) :=
  if (lookupA s.store r.id).isSome then
    .ok (r, { s with store := insertA s.store r.id r })
  else .error (.NotFound "route".data r.id)

/-- Apply `f` to the index entry of `u` when it exists
(`upstream_index.get_mut(&u)`). -/
def adjustIdx (idx : List (Nat × List Nat)) (u : Nat) (f : List Nat → List Nat) :
    List (Nat × List Nat) :=
  match lookupA idx u with
  | some ids => insertA idx u (f ids)
  | none => idx

/-- Embeds `InMemoryRouteRepo::delete`: tenant-checked removal from the store
plus `retain` on the index entry of the route's upstream. -/
def RouteRepo.delete (s : RouteRepo) (tenant id : Nat) :
    Except RepositoryError RouteRepo :=
  match lookupA s.store id with
  | some r =>
      if r.tenant_id = tenant then
        .ok { store := removeA s.store id,
              upstream_index := adjustIdx s.upstream_index r.upstream_id
                (fun ids => ids.filter (fun rid => rid != id)) }
      else .error (.NotFound "route".data id)
  | none => .error (.NotFound "route".data id)

/-- The sweep of `delete_by_upstream`: `store.remove(&id)` per id, counting
same-tenant removals and re-inserting (and recording) other tenants' rows. -/
def sweepLoop (tenant : Nat) : List Nat → List (Nat × Route) →
    List (Nat × Route) × Nat × List Nat
  | [], st => (st, 0, [])
  | id :: ids, st =>
      match lookupA st id with
      | none => sweepLoop tenant ids st
      | some route =>
          if route.tenant_id = tenant then
            let res := sweepLoop tenant ids (removeA st id)
            (res.1, res.2.1 + 1, res.2.2)
          else
            let res := sweepLoop tenant ids (insertA (removeA st id) id route)
            (res.1, res.2.1, id :: res.2.2)

/-- Embeds `InMemoryRouteRepo::delete_by_upstream`: take and drop the index
entry, sweep the store, and re-insert the index entry for surviving ids when
non-empty. Returns the new state and the deleted count. -/
def RouteRepo.delete_by_upstream (s : RouteRepo) (tenant upstream : Nat) :
    RouteRepo × Nat :=
  let route_ids := idxGet s upstream
  let idx0 := removeA s.upstream_index upstream
  let res := sweepLoop tenant route_ids s.store
  let idx2 := if res.2.2 ≠ [] then insertA idx0 upstream res.2.2 else idx0
  ({ store := res.1, upstream_index := idx2 }, res.2.1)

/-- The store/index consistency invariant of the in-memory route repository:
unique store keys, unique index keys, every stored route's id occurs exactly
once in the index entry of its `upstream_id`, and every indexed id is backed
by a stored route of that upstream. -/
def Inv (s : RouteRepo) : Prop :=
  (s.store.map Prod.fst).Nodup ∧
  (s.upstream_index.map Prod.fst).Nodup ∧
  (∀ p ∈ s.store, (idxGet s p.2.upstream_id).count p.1 = 1) ∧
  (∀ q ∈ s.upstream_index, ∀ id ∈ q.2,
    ∃ p ∈ s.store, p.1 = id ∧ p.2.upstream_id = q.1)

instance (s : RouteRepo) : Decidable (Inv s) := by
  unfold Inv; infer_instance

theorem mem_of_lookupA_eq_some {α : Type} {l : List (Nat × α)} {k : Nat} {v : α}
    (h : lookupA l k = some v) : (k, v) ∈ l := by
  induction l with
  | nil => cases h
  | cons p rest ih =>
      obtain ⟨k1, v1⟩ := p
      by_cases h1 : k1 = k
      · subst h1
        simp only [lookupA, if_pos rfl] at h
        cases h
        exact List.mem_cons_self _ _
      · simp only [lookupA, if_neg h1] at h
        exact List.mem_cons_of_mem _ (ih h)

theorem lookupA_eq_some_of_mem {α : Type} {l : List (Nat × α)} {k : Nat} {v : α}
    (hnd : (l.map Prod.fst).Nodup) (h : (k, v) ∈ l) : lookupA l k = some v := by
  induction l with
  | nil => cases h
  | cons p rest ih =>
      obtain ⟨k1, v1⟩ := p
      simp only [List.map_cons, List.nodup_cons] at hnd
      rcases List.mem_cons.mp h with h | h
      · cases h; simp [lookupA]
      · have hk : k1 ≠ k := by
          intro he; subst he
          exact hnd.1 (List.mem_map.mpr ⟨(k1, v), h, rfl⟩)
        simp only [lookupA, if_neg hk]
        exact ih hnd.2 h

theorem lookupA_eq_none_iff {α : Type} (l : List (Nat × α)) (k : Nat) :
    lookupA l k = none ↔ k ∉ l.map Prod.fst := by
  induction l with
  | nil => simp [lookupA]
  | cons p rest ih =>
      obtain ⟨k1, v1⟩ := p
      by_cases h1 : k1 = k
      · subst h1; simp [lookupA]
      · simp [lookupA, h1, ih, Ne.symm h1]

theorem lookupA_isSome_iff {α : Type} (l : List (Nat × α)) (k : Nat) :
    (lookupA l k).isSome = true ↔ k ∈ l.map Prod.fst := by
  rw [← Decidable.not_not (p := k ∈ l.map Prod.fst), ← lookupA_eq_none_iff]
  cases lookupA l k <;> simp

theorem insertA_eq_append_of_fresh {α : Type} {l : List (Nat × α)} {k : Nat}
    (v : α) (h : lookupA l k = none) : insertA l k v = l ++ [(k, v)] := by
  induction l with
  | nil => rfl
  | cons p rest ih =>
      obtain ⟨k1, v1⟩ := p
      by_cases h1 : k1 = k
      · subst h1; simp [lookupA] at h
      · simp only [lookupA, if_neg h1] at h
        simp [insertA, h1, ih h]

theorem keys_insertA_of_mem {α : Type} {l : List (Nat × α)} {k : Nat} (v : α)
    (h : k ∈ l.map Prod.fst) :
    (insertA l k v).map Prod.fst = l.map Prod.fst := by
  induction l with
  | nil => cases h
  | cons p rest ih =>
      obtain ⟨k1, v1⟩ := p
      by_cases h1 : k1 = k
      · subst h1; simp [insertA]
      · simp only [List.map_cons, List.mem_cons] at h
        rcases h with h | h
        · exact absurd h.symm h1
        · simp [insertA, h1, ih h]

theorem nodup_keys_insertA {α : Type} {l : List (Nat × α)} {k : Nat} (v : α)
    (hnd : (l.map Prod.fst).Nodup) :
    ((insertA l k v).map Prod.fst).Nodup := by
  by_cases h : k ∈ l.map Prod.fst
  · rw [keys_insertA_of_mem v h]; exact hnd
  · rw [insertA_eq_append_of_fresh v ((lookupA_eq_none_iff l k).mpr h)]
    simp only [List.map_append, List.map_cons, List.map_nil]
    exact List.Nodup.append hnd (List.nodup_singleton _)
      (by simpa [List.disjoint_right] using h)

theorem mem_iff_lookupA {α : Type} {l : List (Nat × α)} (hnd : (l.map Prod.fst).Nodup)
    (k : Nat) (v : α) : (k, v) ∈ l ↔ lookupA l k = some v :=
  ⟨lookupA_eq_some_of_mem hnd, mem_of_lookupA_eq_some⟩

theorem keys_removeA_sublist {α : Type} (l : List (Nat × α)) (k : Nat) :
    ((removeA l k).map Prod.fst).Sublist (l.map Prod.fst) := by
  induction l with
  | nil => simp [removeA]
  | cons p rest ih =>
      obtain ⟨k1, v1⟩ := p
      by_cases h1 : k1 = k
      · simp only [removeA, if_pos h1, List.map_cons]
        exact ih.cons _
      · simp only [removeA, if_neg h1, List.map_cons]
        exact ih.cons₂ _

theorem nodup_keys_removeA {α : Type} {l : List (Nat × α)} (k : Nat)
    (hnd : (l.map Prod.fst).Nodup) : ((removeA l k).map Prod.fst).Nodup :=
  (keys_removeA_sublist l k).nodup hnd

/-- `true` when the store holds a route under `k` owned by `tenant` (the rows
the sweep of `delete_by_upstream` deletes). -/
def tenantHit (st : List (Nat × Route)) (tenant k : Nat) : Bool :=
  match lookupA st k with
  | some r => r.tenant_id = tenant
  | none => false

/-- `true` when the store holds a route under `k` owned by another tenant
(the rows the sweep re-inserts and records as surviving). -/
def survHit (st : List (Nat × Route)) (tenant k : Nat) : Bool :=
  match lookupA st k with
  | some r => !(r.tenant_id = tenant : Bool)
  | none => false

theorem tenantHit_eq_of_lookup {st1 st2 : List (Nat × Route)} {k : Nat}
    (h : lookupA st1 k = lookupA st2 k) (tenant : Nat) :
    tenantHit st1 tenant k = tenantHit st2 tenant k := by
  rw [tenantHit, tenantHit, h]

theorem sweepLoop_lookup (tenant : Nat) (ids : List Nat) (st : List (Nat × Route))
    (hnd : ids.Nodup) (k : Nat) :
    lookupA (sweepLoop tenant ids st).1 k =
      if k ∈ ids ∧ tenantHit st tenant k = true then none else lookupA st k := by
  induction ids generalizing st with
  | nil => simp [sweepLoop]
  | cons id rest ih =>
      simp only [List.nodup_cons] at hnd
      cases h : lookupA st id with
      | none =>
          simp only [sweepLoop, h]
          rw [ih _ hnd.2]
          by_cases hk : k = id
          · subst hk
            simp [hnd.1, tenantHit, h]
          · simp [hk]
      | some r =>
          by_cases ht : r.tenant_id = tenant
          · simp only [sweepLoop, h, if_pos ht]
            rw [ih _ hnd.2]
            by_cases hk : k = id
            · subst hk
              rw [if_neg (fun hc => hnd.1 hc.1), if_pos ⟨List.mem_cons_self _ _,
                by simp [tenantHit, h, ht]⟩]
              exact lookupA_removeA_self st k
            · have hlk : lookupA (removeA st id) k = lookupA st k :=
                lookupA_removeA_ne st id k (Ne.symm hk)
              have hth : tenantHit (removeA st id) tenant k = tenantHit st tenant k :=
                tenantHit_eq_of_lookup hlk tenant
              rw [hlk, hth]
              by_cases hm : k ∈ rest ∧ tenantHit st tenant k = true
              · rw [if_pos hm, if_pos ⟨List.mem_cons_of_mem _ hm.1, hm.2⟩]
              · rw [if_neg hm,
                  if_neg (fun hc => hm ⟨(List.mem_cons.mp hc.1).resolve_left hk, hc.2⟩)]
          · simp only [sweepLoop, h, if_neg ht]
            rw [ih _ hnd.2]
            by_cases hk : k = id
            · subst hk
              rw [if_neg (fun hc => hnd.1 hc.1),
                if_neg (fun hc => by simp [tenantHit, h, ht] at hc),
                lookupA_insertA_self, h]
            · have hlk : lookupA (insertA (removeA st id) id r) k = lookupA st k := by
                rw [lookupA_insertA_ne _ _ _ _ (Ne.symm hk)]
                exact lookupA_removeA_ne st id k (Ne.symm hk)
              have hth : tenantHit (insertA (removeA st id) id r) tenant k =
                  tenantHit st tenant k := tenantHit_eq_of_lookup hlk tenant
              rw [hlk, hth]
              by_cases hm : k ∈ rest ∧ tenantHit st tenant k = true
              · rw [if_pos hm, if_pos ⟨List.mem_cons_of_mem _ hm.1, hm.2⟩]
              · rw [if_neg hm,
                  if_neg (fun hc => hm ⟨(List.mem_cons.mp hc.1).resolve_left hk, hc.2⟩)]

theorem survHit_eq_of_lookup {st1 st2 : List (Nat × Route)} {k : Nat}
    (h : lookupA st1 k = lookupA st2 k) (tenant : Nat) :
    survHit st1 tenant k = survHit st2 tenant k := by
  rw [survHit, survHit, h]

theorem sweepLoop_count (tenant : Nat) (ids : List Nat) (st : List (Nat × Route))
    (hnd : ids.Nodup) :
    (sweepLoop tenant ids st).2.1 =
      (ids.filter (fun id => tenantHit st tenant id)).length := by
  induction ids generalizing st with
  | nil => simp [sweepLoop]
  | cons id rest ih =>
      simp only [List.nodup_cons] at hnd
      cases h : lookupA st id with
      | none =>
          simp only [sweepLoop, h]
          rw [ih _ hnd.2, List.filter_cons,
            show tenantHit st tenant id = false from by simp [tenantHit, h]]
          simp
      | some r =>
          by_cases ht : r.tenant_id = tenant
          · simp only [sweepLoop, h, if_pos ht]
            rw [ih _ hnd.2, List.filter_cons,
              show tenantHit st tenant id = true from by simp [tenantHit, h, ht],
              List.filter_congr (fun x hx => tenantHit_eq_of_lookup
                (lookupA_removeA_ne st id x (fun he => hnd.1 (he ▸ hx))) tenant)]
            simp
          · simp only [sweepLoop, h, if_neg ht]
            rw [ih _ hnd.2, List.filter_cons,
              show tenantHit st tenant id = false from by simp [tenantHit, h, ht]]
            have hcong :
                List.filter (fun x => tenantHit (insertA (removeA st id) id r) tenant x)
                    rest =
                  List.filter (fun x => tenantHit st tenant x) rest :=
              List.filter_congr (fun x hx => tenantHit_eq_of_lookup (by
                rw [lookupA_insertA_ne (removeA st id) id x r (fun he => hnd.1 (he ▸ hx))]
                exact lookupA_removeA_ne st id x (fun he => hnd.1 (he ▸ hx))) tenant)
            rw [hcong]
            simp

theorem sweepLoop_surv (tenant : Nat) (ids : List Nat) (st : List (Nat × Route))
    (hnd : ids.Nodup) :
    (sweepLoop tenant ids st).2.2 = ids.filter (fun id => survHit st tenant id) := by
  induction ids generalizing st with
  | nil => simp [sweepLoop]
  | cons id rest ih =>
      simp only [List.nodup_cons] at hnd
      cases h : lookupA st id with
      | none =>
          simp only [sweepLoop, h]
          rw [ih _ hnd.2, List.filter_cons,
            show survHit st tenant id = false from by simp [survHit, h]]
          simp
      | some r =>
          by_cases ht : r.tenant_id = tenant
          · simp only [sweepLoop, h, if_pos ht]
            rw [ih _ hnd.2, List.filter_cons,
              show survHit st tenant id = false from by simp [survHit, h, ht],
              List.filter_congr (fun x hx => survHit_eq_of_lookup
                (lookupA_removeA_ne st id x (fun he => hnd.1 (he ▸ hx))) tenant)]
            simp
          · simp only [sweepLoop, h, if_neg ht]
            rw [ih _ hnd.2, List.filter_cons,
              show survHit st tenant id = true from by simp [survHit, h, ht]]
            have hcong :
                List.filter (fun x => survHit (insertA (removeA st id) id r) tenant x)
                    rest =
                  List.filter (fun x => survHit st tenant x) rest :=
              List.filter_congr (fun x hx => survHit_eq_of_lookup (by
                rw [lookupA_insertA_ne (removeA st id) id x r (fun he => hnd.1 (he ▸ hx))]
                exact lookupA_removeA_ne st id x (fun he => hnd.1 (he ▸ hx))) tenant)
            rw [hcong]
            simp

theorem lookupA_pushIdx_self (idx : List (Nat × List Nat)) (u id : Nat) :
    lookupA (pushIdx idx u id) u = some ((lookupA idx u).getD [] ++ [id]) := by
  unfold pushIdx
  cases h : lookupA idx u with
  | some ids => rw [lookupA_insertA_self]; rfl
  | none => rw [lookupA_insertA_self]; rfl

theorem lookupA_pushIdx_ne (idx : List (Nat × List Nat)) (u0 id u : Nat)
    (h : u0 ≠ u) : lookupA (pushIdx idx u0 id) u = lookupA idx u := by
  unfold pushIdx
  cases lookupA idx u0 with
  | some ids => exact lookupA_insertA_ne _ _ _ _ h
  | none => exact lookupA_insertA_ne _ _ _ _ h

theorem nodup_keys_pushIdx (idx : List (Nat × List Nat)) (u id : Nat)
    (hnd : (idx.map Prod.fst).Nodup) : ((pushIdx idx u id).map Prod.fst).Nodup := by
  unfold pushIdx
  cases lookupA idx u with
  | some ids => exact nodup_keys_insertA _ hnd
  | none => exact nodup_keys_insertA _ hnd

theorem lookupA_adjustIdx_self (idx : List (Nat × List Nat)) (u : Nat)
    (f : List Nat → List Nat) :
    lookupA (adjustIdx idx u f) u = (lookupA idx u).map f := by
  unfold adjustIdx
  cases h : lookupA idx u with
  | some ids => rw [lookupA_insertA_self]; rfl
  | none => rw [h]; rfl

theorem lookupA_adjustIdx_ne (idx : List (Nat × List Nat)) (u0 : Nat)
    (f : List Nat → List Nat) (u : Nat) (h : u0 ≠ u) :
    lookupA (adjustIdx idx u0 f) u = lookupA idx u := by
  unfold adjustIdx
  cases lookupA idx u0 with
  | some ids => exact lookupA_insertA_ne _ _ _ _ h
  | none => rfl

theorem nodup_keys_adjustIdx (idx : List (Nat × List Nat)) (u : Nat)
    (f : List Nat → List Nat) (hnd : (idx.map Prod.fst).Nodup) :
    ((adjustIdx idx u f).map Prod.fst).Nodup := by
  unfold adjustIdx
  cases lookupA idx u with
  | some ids => exact nodup_keys_insertA _ hnd
  | none => exact hnd

/-- Under the invariant, every id listed for upstream `u` is backed by a
stored route of `u`. -/
theorem inv_ids_backed {s : RouteRepo} (hInv : Inv s) {u id : Nat}
    (h : id ∈ idxGet s u) :
    ∃ r, lookupA s.store id = some r ∧ r.upstream_id = u := by
  unfold idxGet at h
  cases hl : lookupA s.upstream_index u with
  | none => rw [hl] at h; cases h
  | some ids =>
      rw [hl] at h
      obtain ⟨⟨pid, pr⟩, hp, hpid, hpu⟩ :=
        hInv.2.2.2 (u, ids) (mem_of_lookupA_eq_some hl) id h
      have hpid2 : pid = id := hpid
      subst hpid2
      exact ⟨pr, lookupA_eq_some_of_mem hInv.1 hp, hpu⟩

/-- Under the invariant, a stored route's id occurs (exactly once) in the
index entry of its upstream. -/
theorem inv_store_indexed {s : RouteRepo} (hInv : Inv s) {id : Nat} {r : Route}
    (h : lookupA s.store id = some r) :
    (idxGet s r.upstream_id).count id = 1 :=
  hInv.2.2.1 (id, r) (mem_of_lookupA_eq_some h)

/-- Under the invariant, index entries hold no duplicate ids. -/
theorem inv_idx_nodup {s : RouteRepo} (hInv : Inv s) (u : Nat) :
    (idxGet s u).Nodup := by
  rw [List.nodup_iff_count_le_one]
  intro a
  by_cases ha : a ∈ idxGet s u
  · obtain ⟨r, hr, hru⟩ := inv_ids_backed hInv ha
    have := inv_store_indexed hInv hr
    rw [hru] at this
    omega
  · rw [List.count_eq_zero_of_not_mem ha]
    omega

theorem inv_create {s : RouteRepo} {r : Route} (hInv : Inv s)
    (hfresh : lookupA s.store r.id = none) : Inv (s.create r) := by
  have hndS := hInv.1
  have hndI := hInv.2.1
  have h3 := hInv.2.2.1
  have h4 := hInv.2.2.2
  have hfresh2 : r.id ∉ s.store.map Prod.fst := (lookupA_eq_none_iff _ _).mp hfresh
  have hstore : (s.create r).store = s.store ++ [(r.id, r)] :=
    insertA_eq_append_of_fresh r hfresh
  have hidxSelf : idxGet (s.create r) r.upstream_id =
      idxGet s r.upstream_id ++ [r.id] := by
    simp only [idxGet, RouteRepo.create]
    rw [lookupA_pushIdx_self]
    rfl
  have hidxNe : ∀ u, u ≠ r.upstream_id → idxGet (s.create r) u = idxGet s u := by
    intro u hu
    simp only [idxGet, RouteRepo.create]
    rw [lookupA_pushIdx_ne _ _ _ _ (Ne.symm hu)]
  have hnotidx : r.id ∉ idxGet s r.upstream_id := by
    intro hmem
    obtain ⟨r2, hr2, _⟩ := inv_ids_backed hInv hmem
    rw [hfresh] at hr2; cases hr2
  refine ⟨?_, ?_, ?_, ?_⟩
  · rw [hstore]
    simp only [List.map_append, List.map_cons, List.map_nil]
    exact List.Nodup.append hndS (List.nodup_singleton _)
      (by simpa [List.disjoint_right] using hfresh2)
  · exact nodup_keys_pushIdx _ _ _ hndI
  · intro p hp
    rw [hstore] at hp
    rcases List.mem_append.mp hp with hp | hp
    · have hne : p.1 ≠ r.id := by
        intro he
        exact hfresh2 (he ▸ List.mem_map.mpr ⟨p, hp, rfl⟩)
      by_cases hu : p.2.upstream_id = r.upstream_id
      · rw [hu, hidxSelf, List.count_append]
        have hc := h3 p hp
        rw [hu] at hc
        simp [hc, List.count_singleton', hne]
      · rw [hidxNe _ hu]
        exact h3 p hp
    · simp only [List.mem_singleton] at hp
      subst hp
      rw [hidxSelf, List.count_append, List.count_eq_zero_of_not_mem hnotidx]
      simp
  · rintro ⟨q1, q2⟩ hq id hid
    have hndI2 : (((s.create r).upstream_index).map Prod.fst).Nodup :=
      nodup_keys_pushIdx _ _ _ hndI
    have hlq : lookupA (s.create r).upstream_index q1 = some q2 :=
      lookupA_eq_some_of_mem hndI2 hq
    by_cases hu : q1 = r.upstream_id
    · have hq2 : q2 = idxGet s r.upstream_id ++ [r.id] := by
        have h1 : lookupA (s.create r).upstream_index r.upstream_id =
            some (idxGet s r.upstream_id ++ [r.id]) := by
          simp only [RouteRepo.create]
          rw [lookupA_pushIdx_self]
          rfl
        rw [hu, h1] at hlq
        cases hlq; rfl
      rw [hq2] at hid
      rcases List.mem_append.mp hid with hid | hid
      · unfold idxGet at hid
        cases hl : lookupA s.upstream_index r.upstream_id with
        | none => rw [hl] at hid; cases hid
        | some ids =>
            rw [hl] at hid
            obtain ⟨p, hp, hpid, hpu⟩ :=
              h4 (r.upstream_id, ids) (mem_of_lookupA_eq_some hl) id hid
            exact ⟨p, by rw [hstore]; exact List.mem_append_left _ hp, hpid,
              by rw [hu]; exact hpu⟩
      · simp only [List.mem_singleton] at hid
        subst hid
        exact ⟨(r.id, r), by rw [hstore]; exact List.mem_append_right _ (by simp),
          rfl, by rw [hu]⟩
    · have hlq2 : lookupA s.upstream_index q1 = some q2 := by
        have h1 : lookupA (s.create r).upstream_index q1 =
            lookupA s.upstream_index q1 := by
          simp only [RouteRepo.create]
          exact lookupA_pushIdx_ne _ _ _ _ (fun he => hu he.symm)
        rw [← h1]; exact hlq
      obtain ⟨p, hp, hpid, hpu⟩ := h4 (q1, q2) (mem_of_lookupA_eq_some hlq2) id hid
      exact ⟨p, by rw [hstore]; exact List.mem_append_left _ hp, hpid, hpu⟩

theorem count_filter_of_pos {a : Nat} {p : Nat → Bool} (l : List Nat)
    (h : p a = true) : (l.filter p).count a = l.count a := by
  induction l with
  | nil => rfl
  | cons x xs ih =>
      rw [List.filter_cons]
      by_cases hx : p x = true
      · rw [if_pos hx, List.count_cons, List.count_cons, ih]
      · have hax : ¬(x = a) := fun he => hx (he ▸ h)
        rw [if_neg (by simpa using hx), List.count_cons, ih]
        simp [hax]

theorem inv_update {s : RouteRepo} {r rOut : Route} {s2 : RouteRepo} (hInv : Inv s)
    (hok : s.update r = .ok (rOut, s2))
    (hup : ∀ old, lookupA s.store r.id = some old → old.upstream_id = r.upstream_id) :
    Inv s2 := by
  unfold RouteRepo.update at hok
  by_cases hsome : (lookupA s.store r.id).isSome = true
  case neg => rw [if_neg hsome] at hok; cases hok
  rw [if_pos hsome] at hok
  cases hok
  obtain ⟨old, hold⟩ := Option.isSome_iff_exists.mp hsome
  have hupo := hup old hold
  have hkeys : (insertA s.store r.id r).map Prod.fst = s.store.map Prod.fst :=
    keys_insertA_of_mem r ((lookupA_isSome_iff _ _).mp hsome)
  have hndS2 : ((insertA s.store r.id r).map Prod.fst).Nodup := by
    rw [hkeys]; exact hInv.1
  have hlk : ∀ k, lookupA (insertA s.store r.id r) k =
      if k = r.id then some r else lookupA s.store k := by
    intro k
    by_cases hk : k = r.id
    · subst hk; rw [if_pos rfl]; exact lookupA_insertA_self _ _ _
    · rw [if_neg hk]; exact lookupA_insertA_ne _ _ _ _ (fun he => hk he.symm)
  refine ⟨hndS2, hInv.2.1, ?_, ?_⟩
  · rintro ⟨pid, pr⟩ hp
    have hlp : lookupA (insertA s.store r.id r) pid = some pr :=
      lookupA_eq_some_of_mem hndS2 hp
    rw [hlk pid] at hlp
    by_cases hk : pid = r.id
    · rw [if_pos hk] at hlp
      cases hlp
      have h1 := inv_store_indexed hInv hold
      rw [hupo] at h1
      show ((lookupA s.upstream_index _).getD []).count pid = 1
      rw [hk]
      exact h1
    · rw [if_neg hk] at hlp
      exact hInv.2.2.1 (pid, pr) (mem_of_lookupA_eq_some hlp)
  · rintro ⟨q1, q2⟩ hq id hid
    obtain ⟨⟨pid, pr⟩, hp, hpid, hpu⟩ := hInv.2.2.2 (q1, q2) hq id hid
    have hlp : lookupA s.store pid = some pr := lookupA_eq_some_of_mem hInv.1 hp
    by_cases hk : pid = r.id
    · subst hk
      rw [hold] at hlp
      cases hlp
      refine ⟨(r.id, r), mem_of_lookupA_eq_some
        (show lookupA (insertA s.store r.id r) r.id = some r from by
          rw [hlk, if_pos rfl]), hpid, ?_⟩
      show r.upstream_id = q1
      rw [← hupo]
      exact hpu
    · exact ⟨(pid, pr),
        mem_of_lookupA_eq_some (by rw [hlk pid, if_neg hk]; exact hlp), hpid, hpu⟩

theorem inv_delete {s s2 : RouteRepo} {t id : Nat} (hInv : Inv s)
    (hok : s.delete t id = .ok s2) : Inv s2 := by
  unfold RouteRepo.delete at hok
  cases hr : lookupA s.store id with
  | none => rw [hr] at hok; cases hok
  | some r =>
      simp only [hr] at hok
      by_cases ht : r.tenant_id = t
      case neg => rw [if_neg ht] at hok; cases hok
      rw [if_pos ht] at hok
      cases hok
      have hndS2 : ((removeA s.store id).map Prod.fst).Nodup :=
        nodup_keys_removeA id hInv.1
      have hndI2 : ((adjustIdx s.upstream_index r.upstream_id
          (fun ids => ids.filter (fun rid => rid != id))).map Prod.fst).Nodup :=
        nodup_keys_adjustIdx _ _ _ hInv.2.1
      have hidx2self :
          (lookupA (adjustIdx s.upstream_index r.upstream_id
            (fun ids => ids.filter (fun rid => rid != id))) r.upstream_id).getD [] =
          (idxGet s r.upstream_id).filter (fun rid => rid != id) := by
        rw [lookupA_adjustIdx_self]
        unfold idxGet
        cases h2 : lookupA s.upstream_index r.upstream_id <;> simp
      have hidx2ne : ∀ w, w ≠ r.upstream_id →
          (lookupA (adjustIdx s.upstream_index r.upstream_id
            (fun ids => ids.filter (fun rid => rid != id))) w).getD [] = idxGet s w := by
        intro w hw
        rw [lookupA_adjustIdx_ne _ _ _ _ (Ne.symm hw)]
        rfl
      refine ⟨hndS2, hndI2, ?_, ?_⟩
      · rintro ⟨pid, pr⟩ hp
        have hlp : lookupA (removeA s.store id) pid = some pr :=
          lookupA_eq_some_of_mem hndS2 hp
        have hne : pid ≠ id := by
          intro he
          rw [he, lookupA_removeA_self] at hlp
          cases hlp
        rw [lookupA_removeA_ne _ _ _ (Ne.symm hne)] at hlp
        have hcount := hInv.2.2.1 (pid, pr) (mem_of_lookupA_eq_some hlp)
        show ((lookupA (adjustIdx _ _ _) pr.upstream_id).getD []).count pid = 1
        by_cases hw : pr.upstream_id = r.upstream_id
        · rw [hw, hidx2self, count_filter_of_pos _ (by simpa using hne), ← hw]
          exact hcount
        · rw [hidx2ne _ hw]
          exact hcount
      · rintro ⟨q1, q2⟩ hq id2 hid2
        have hlq : lookupA (adjustIdx s.upstream_index r.upstream_id
            (fun ids => ids.filter (fun rid => rid != id))) q1 = some q2 :=
          lookupA_eq_some_of_mem hndI2 hq
        by_cases hw : q1 = r.upstream_id
        · rw [hw, lookupA_adjustIdx_self] at hlq
          cases hl : lookupA s.upstream_index r.upstream_id with
          | none => rw [hl] at hlq; cases hlq
          | some ids =>
              rw [hl] at hlq
              cases hlq
              have hid3 := List.mem_filter.mp hid2
              have hne2 : id2 ≠ id := by simpa using hid3.2
              obtain ⟨⟨pid, pr⟩, hp, hpid, hpu⟩ :=
                hInv.2.2.2 (r.upstream_id, ids) (mem_of_lookupA_eq_some hl) id2 hid3.1
              have hpid2 : pid = id2 := hpid
              have hplook : lookupA s.store pid = some pr :=
                lookupA_eq_some_of_mem hInv.1 hp
              refine ⟨(pid, pr), mem_of_lookupA_eq_some ?_, hpid, by rw [hw]; exact hpu⟩
              rw [lookupA_removeA_ne _ _ _ (by rw [hpid2]; exact Ne.symm hne2)]
              exact hplook
        · have hlq2 : lookupA s.upstream_index q1 = some q2 := by
            rw [← lookupA_adjustIdx_ne s.upstream_index r.upstream_id _ q1
              (fun he => hw he.symm)]
            exact hlq
          obtain ⟨⟨pid, pr⟩, hp, hpid, hpu⟩ :=
            hInv.2.2.2 (q1, q2) (mem_of_lookupA_eq_some hlq2) id2 hid2
          have hplook : lookupA s.store pid = some pr :=
            lookupA_eq_some_of_mem hInv.1 hp
          have hne : pid ≠ id := by
            intro he
            rw [he, hr] at hplook
            cases hplook
            exact hw hpu.symm
          exact ⟨(pid, pr), mem_of_lookupA_eq_some
            (by rw [lookupA_removeA_ne _ _ _ (Ne.symm hne)]; exact hplook), hpid, hpu⟩

theorem sweepLoop_nodup (tenant : Nat) (ids : List Nat) (st : List (Nat × Route))
    (hnd : (st.map Prod.fst).Nodup) :
    ((sweepLoop tenant ids st).1.map Prod.fst).Nodup := by
  induction ids generalizing st with
  | nil => simpa [sweepLoop] using hnd
  | cons id rest ih =>
      cases h : lookupA st id with
      | none => simpa only [sweepLoop, h] using ih _ hnd
      | some r =>
          by_cases ht : r.tenant_id = tenant
          · simp only [sweepLoop, h, if_pos ht]
            exact ih _ (nodup_keys_removeA id hnd)
          · simp only [sweepLoop, h, if_neg ht]
            exact ih _ (nodup_keys_insertA r (nodup_keys_removeA id hnd))

theorem lookupA_dbu_index (s : RouteRepo) (t u : Nat) (w : Nat) :
    lookupA (s.delete_by_upstream t u).1.upstream_index w =
      if w = u then
        (if (sweepLoop t (idxGet s u) s.store).2.2 ≠ [] then
          some (sweepLoop t (idxGet s u) s.store).2.2 else none)
      else lookupA s.upstream_index w := by
  show lookupA (if (sweepLoop t (idxGet s u) s.store).2.2 ≠ [] then
      insertA (removeA s.upstream_index u) u (sweepLoop t (idxGet s u) s.store).2.2
    else removeA s.upstream_index u) w = _
  by_cases hs : (sweepLoop t (idxGet s u) s.store).2.2 ≠ []
  · rw [if_pos hs, if_pos hs]
    by_cases hw : w = u
    · subst hw
      rw [if_pos rfl, lookupA_insertA_self]
    · rw [if_neg hw, lookupA_insertA_ne _ _ _ _ (fun he => hw he.symm),
        lookupA_removeA_ne _ _ _ (fun he => hw he.symm)]
  · rw [if_neg hs, if_neg hs]
    by_cases hw : w = u
    · subst hw
      rw [if_pos rfl, lookupA_removeA_self]
    · rw [if_neg hw, lookupA_removeA_ne _ _ _ (fun he => hw he.symm)]

theorem nodup_keys_dbu_index (s : RouteRepo) (t u : Nat)
    (hnd : (s.upstream_index.map Prod.fst).Nodup) :
    ((s.delete_by_upstream t u).1.upstream_index.map Prod.fst).Nodup := by
  show (List.map Prod.fst (if (sweepLoop t (idxGet s u) s.store).2.2 ≠ [] then
      insertA (removeA s.upstream_index u) u (sweepLoop t (idxGet s u) s.store).2.2
    else removeA s.upstream_index u)).Nodup
  by_cases hs : (sweepLoop t (idxGet s u) s.store).2.2 ≠ []
  · rw [if_pos hs]
    exact nodup_keys_insertA _ (nodup_keys_removeA u hnd)
  · rw [if_neg hs]
    exact nodup_keys_removeA u hnd

theorem inv_delete_by_upstream {s : RouteRepo} (t u : Nat) (hInv : Inv s) :
    Inv (s.delete_by_upstream t u).1 := by
  have hndids : (idxGet s u).Nodup := inv_idx_nodup hInv u
  have hlook := fun k => sweepLoop_lookup t (idxGet s u) s.store hndids k
  have hsurv := sweepLoop_surv t (idxGet s u) s.store hndids
  have hndS2 : ((sweepLoop t (idxGet s u) s.store).1.map Prod.fst).Nodup :=
    sweepLoop_nodup t _ _ hInv.1
  have hstore2 : (s.delete_by_upstream t u).1.store =
      (sweepLoop t (idxGet s u) s.store).1 := rfl
  have hndI2 : ((s.delete_by_upstream t u).1.upstream_index.map Prod.fst).Nodup :=
    nodup_keys_dbu_index s t u hInv.2.1
  refine ⟨by rw [hstore2]; exact hndS2, hndI2, ?_, ?_⟩
  · rintro ⟨pid, pr⟩ hp
    rw [hstore2] at hp
    have hlp : lookupA (sweepLoop t (idxGet s u) s.store).1 pid = some pr :=
      lookupA_eq_some_of_mem hndS2 hp
    rw [hlook pid] at hlp
    by_cases hcond : pid ∈ idxGet s u ∧ tenantHit s.store t pid = true
    · rw [if_pos hcond] at hlp; cases hlp
    · rw [if_neg hcond] at hlp
      have hcount := hInv.2.2.1 (pid, pr) (mem_of_lookupA_eq_some hlp)
      show ((lookupA (s.delete_by_upstream t u).1.upstream_index pr.upstream_id).getD
        []).count pid = 1
      rw [lookupA_dbu_index]
      by_cases hw : pr.upstream_id = u
      · rw [if_pos hw]
        have hmemids : pid ∈ idxGet s u := by
          have h1 : (idxGet s u).count pid = 1 := by rw [← hw]; exact hcount
          by_contra hnm
          rw [List.count_eq_zero_of_not_mem hnm] at h1
          exact absurd h1 (by omega)
        have hth : tenantHit s.store t pid = false := by
          cases htt : tenantHit s.store t pid
          · rfl
          · exact absurd ⟨hmemids, htt⟩ hcond
        have hsh : survHit s.store t pid = true := by
          rw [survHit, hlp]
          rw [tenantHit, hlp] at hth
          simp only [Bool.not_eq_true']
          exact hth
        have hmemsurv : pid ∈ (sweepLoop t (idxGet s u) s.store).2.2 := by
          rw [hsurv]
          exact List.mem_filter.mpr ⟨hmemids, hsh⟩
        rw [if_pos (List.ne_nil_of_mem hmemsurv)]
        show ((sweepLoop t (idxGet s u) s.store).2.2).count pid = 1
        rw [hsurv, count_filter_of_pos _ hsh, ← hw]
        exact hcount
      · rw [if_neg hw]
        exact hcount
  · rintro ⟨q1, q2⟩ hq id2 hid2
    have hlq : lookupA (s.delete_by_upstream t u).1.upstream_index q1 = some q2 :=
      lookupA_eq_some_of_mem hndI2 hq
    rw [lookupA_dbu_index] at hlq
    by_cases hw : q1 = u
    · rw [if_pos hw] at hlq
      by_cases hs : (sweepLoop t (idxGet s u) s.store).2.2 ≠ []
      · rw [if_pos hs] at hlq
        cases hlq
        rw [hsurv] at hid2
        have hid3 := List.mem_filter.mp hid2
        obtain ⟨r, hr, hru⟩ := inv_ids_backed hInv hid3.1
        have hrt : r.tenant_id ≠ t := by
          have h1 := hid3.2
          rw [survHit, hr] at h1
          simpa using h1
        have hth : tenantHit s.store t id2 = false := by
          rw [tenantHit, hr]
          simpa using hrt
        have hlid2 : lookupA (sweepLoop t (idxGet s u) s.store).1 id2 = some r := by
          rw [hlook id2, if_neg (fun hc => by rw [hth] at hc; exact Bool.noConfusion hc.2)]
          exact hr
        refine ⟨(id2, r), ?_, rfl, ?_⟩
        · rw [hstore2]
          exact mem_of_lookupA_eq_some hlid2
        · show r.upstream_id = q1
          rw [hw]
          exact hru
      · rw [if_neg hs] at hlq
        cases hlq
    · rw [if_neg hw] at hlq
      obtain ⟨⟨pid, pr⟩, hp, hpid, hpu⟩ :=
        hInv.2.2.2 (q1, q2) (mem_of_lookupA_eq_some hlq) id2 hid2
      have hplook : lookupA s.store pid = some pr := lookupA_eq_some_of_mem hInv.1 hp
      have hnotin : pid ∉ idxGet s u := by
        intro hmem
        obtain ⟨r2, hr2, hr2u⟩ := inv_ids_backed hInv hmem
        rw [hplook] at hr2
        cases hr2
        exact hw (hpu.symm.trans hr2u)
      refine ⟨(pid, pr), ?_, hpid, hpu⟩
      rw [hstore2]
      refine mem_of_lookupA_eq_some ?_
      rw [hlook pid, if_neg (fun hc => hnotin hc.1)]
      exact hplook

/-- One route-repository operation, as invoked through the service layer. -/
inductive RepoOp : Type where
  | create (r : Route)
  | update (r : Route)
  | delete (tenant id : Nat)
  | deleteByUpstream (tenant upstream : Nat)
  deriving DecidableEq, Repr

/-- State after an operation; failed updates/deletes leave the state
unchanged. -/
def applyOp (s : RouteRepo) : RepoOp → RouteRepo
  | .create r => s.create r
  | .update r =>
      match s.update r with
      | .ok p => p.2
      | .error _ => s
  | .delete t id =>
      match s.delete t id with
      | .ok s2 => s2
      | .error _ => s
  | .deleteByUpstream t u => (s.delete_by_upstream t u).1

/-- Admissibility per the claim: creations use fresh ids; updates keep the
route's `upstream_id`. -/
def opOk (s : RouteRepo) : RepoOp → Prop
  | .create r => lookupA s.store r.id = none
  | .update r =>
      match lookupA s.store r.id with
      | some old => old.upstream_id = r.upstream_id
      | none => True
  | .delete _ _ => True
  | .deleteByUpstream _ _ => True

instance decOpOk (s : RouteRepo) (op : RepoOp) : Decidable (opOk s op) := by
  cases op with
  | create r => exact inferInstanceAs (Decidable (lookupA s.store r.id = none))
  | update r =>
      show Decidable (match lookupA s.store r.id with
        | some old => old.upstream_id = r.upstream_id
        | none => True)
      cases lookupA s.store r.id with
      | some old => exact inferInstanceAs (Decidable (_ = _))
      | none => exact .isTrue trivial
  | delete t id => exact .isTrue trivial
  | deleteByUpstream t u => exact .isTrue trivial

/-- Run a sequence of operations. -/
def execOps : RouteRepo → List RepoOp → RouteRepo
  | s, [] => s
  | s, op :: ops => execOps (applyOp s op) ops

/-- Every operation of the sequence is admissible in the state it runs in. -/
def opsOk : RouteRepo → List RepoOp → Prop
  | _, [] => True
  | s, op :: ops => opOk s op ∧ opsOk (applyOp s op) ops

instance decOpsOk : (s : RouteRepo) → (ops : List RepoOp) → Decidable (opsOk s ops)
  | _, [] => .isTrue trivial
  | s, op :: rest =>
      have : Decidable (opsOk (applyOp s op) rest) := decOpsOk _ rest
      inferInstanceAs (Decidable (_ ∧ _))

theorem inv_applyOp {s : RouteRepo} {op : RepoOp} (hInv : Inv s) (hok : opOk s op) :
    Inv (applyOp s op) := by
  cases op with
  | create r => exact inv_create hInv hok
  | update r =>
      show Inv (match s.update r with | .ok p => p.2 | .error _ => s)
      cases hu : s.update r with
      | ok p =>
          obtain ⟨r2, s2⟩ := p
          refine inv_update hInv hu ?_
          intro old hold
          have hok2 : (match lookupA s.store r.id with
            | some o => o.upstream_id = r.upstream_id
            | none => True) := hok
          rw [hold] at hok2
          exact hok2
      | error e => exact hInv
  | delete t id =>
      show Inv (match s.delete t id with | .ok s2 => s2 | .error _ => s)
      cases hd : s.delete t id with
      | ok s2 => exact inv_delete hInv hd
      | error e => exact hInv
  | deleteByUpstream t u => exact inv_delete_by_upstream t u hInv

theorem inv_execOps : ∀ (ops : List RepoOp) (s : RouteRepo),
    Inv s → opsOk s ops → Inv (execOps s ops)
  | [], _, hInv, _ => hInv
  | _ :: rest, s, hInv, hok =>
      inv_execOps rest _ (inv_applyOp hInv hok.1) hok.2

theorem inv_empty : Inv RouteRepo.empty := by
  refine ⟨List.nodup_nil, List.nodup_nil, ?_, ?_⟩
  · intro p hp; cases hp
  · intro q hq; cases hq

/-- Under the invariant, `list_by_upstream` with the full page observes
exactly the stored routes of that tenant and upstream. -/
theorem inv_list_by_upstream {s : RouteRepo} (hInv : Inv s) (t u : Nat) (r : Route) :
    r ∈ s.list_by_upstream t u (idxGet s u).length 0 ↔
      ∃ id, lookupA s.store id = some r ∧ r.tenant_id = t ∧ r.upstream_id = u := by
  unfold RouteRepo.list_by_upstream
  have hperm := List.mergeSort_perm ((idxGet s u).filterMap (fun id =>
    match lookupA s.store id with
    | some r2 => if r2.tenant_id = t then some r2 else none
    | none => none)) (fun a b => a.id ≤ b.id)
  constructor
  · intro hmem
    have h1 : r ∈ ((idxGet s u).filterMap (fun id =>
        match lookupA s.store id with
        | some r2 => if r2.tenant_id = t then some r2 else none
        | none => none)).mergeSort (fun a b => a.id ≤ b.id) := by
      have := List.mem_of_mem_take hmem
      simpa using this
    have h2 := hperm.mem_iff.mp h1
    obtain ⟨id, hid, hfm⟩ := List.mem_filterMap.mp h2
    cases hl : lookupA s.store id with
    | none => rw [hl] at hfm; cases hfm
    | some r2 =>
        simp only [hl] at hfm
        by_cases htt : r2.tenant_id = t
        · rw [if_pos htt] at hfm
          cases hfm
          obtain ⟨r3, hr3, hr3u⟩ := inv_ids_backed hInv hid
          rw [hl] at hr3
          cases hr3
          exact ⟨id, hl, htt, hr3u⟩
        · rw [if_neg htt] at hfm; cases hfm
  · rintro ⟨id, hl, htt, hru⟩
    have hmemids : id ∈ idxGet s u := by
      have h1 := inv_store_indexed hInv hl
      rw [hru] at h1
      by_contra hnm
      rw [List.count_eq_zero_of_not_mem hnm] at h1
      exact absurd h1 (by omega)
    have h2 : r ∈ (idxGet s u).filterMap (fun id =>
        match lookupA s.store id with
        | some r2 => if r2.tenant_id = t then some r2 else none
        | none => none) :=
      List.mem_filterMap.mpr ⟨id, hmemids, by simp only [hl]; rw [if_pos htt]⟩
    have h3 := hperm.mem_iff.mpr h2
    have hlen : (((idxGet s u).filterMap (fun id =>
        match lookupA s.store id with
        | some r2 => if r2.tenant_id = t then some r2 else none
        | none => none)).mergeSort (fun a b => a.id ≤ b.id)).length ≤
        (idxGet s u).length := by
      rw [hperm.length_eq]
      exact List.length_filterMap_le _ _
    simpa [List.take_of_length_le hlen] using h3

/-- Claim C9 (confirmed): after any admissible sequence of repository
operations from the empty state (creations with fresh ids, updates that keep
the route's `upstream_id`, deletes, cascade deletes), the upstream index is
consistent with the primary store: a route is stored iff its id occurs
exactly once in the index entry of its `upstream_id`, every indexed id is
backed by a stored route of that upstream, and `list_by_upstream` observes
exactly the stored routes of the queried tenant and upstream. -/
theorem c9_index_consistency (ops : List RepoOp)
    (hok : opsOk RouteRepo.empty ops) :
    (∀ id r, lookupA (execOps RouteRepo.empty ops).store id = some r →
      (idxGet (execOps RouteRepo.empty ops) r.upstream_id).count id = 1) ∧
    (∀ u id, id ∈ idxGet (execOps RouteRepo.empty ops) u →
      ∃ r, lookupA (execOps RouteRepo.empty ops).store id = some r ∧
        r.upstream_id = u) ∧
    (∀ t u r, r ∈ (execOps RouteRepo.empty ops).list_by_upstream t u
        (idxGet (execOps RouteRepo.empty ops) u).length 0 ↔
      ∃ id, lookupA (execOps RouteRepo.empty ops).store id = some r ∧
        r.tenant_id = t ∧ r.upstream_id = u) := by
  have hInv : Inv (execOps RouteRepo.empty ops) := inv_execOps ops _ inv_empty hok
  exact ⟨fun id r h => inv_store_indexed hInv h,
    fun u id h => inv_ids_backed hInv h,
    fun t u r => inv_list_by_upstream hInv t u r⟩

def c9route : Route :=
  { id := 1, tenant_id := 2, upstream_id := 3,
    match_rules := { http := none, grpc := none }, priority := 0,
    enabled := true }

theorem c9_index_consistency_witness :
    ∃ r, lookupA (execOps RouteRepo.empty [RepoOp.create c9route]).store 1 =
      some r ∧ r.upstream_id = 3 :=
  (c9_index_consistency [RepoOp.create c9route] (by decide)).2.1 3 1 (by decide)

-- ---------------------------------------------------------------------------
-- C1: the selection order of find_matching
-- ---------------------------------------------------------------------------

/-- Strict lexicographic order on `(path byte length, priority)` pairs, the
order in which `find_matching` improves its running best. -/
def lexLt (a b : Nat × Int) : Prop := a.1 < b.1 ∨ (a.1 = b.1 ∧ a.2 < b.2)

/-- Reflexive lexicographic order on `(path byte length, priority)` pairs. -/
def lexLe (a b : Nat × Int) : Prop := a.1 < b.1 ∨ (a.1 = b.1 ∧ a.2 ≤ b.2)

instance (a b : Nat × Int) : Decidable (lexLt a b) := by
  unfold lexLt; infer_instance

instance (a b : Nat × Int) : Decidable (lexLe a b) := by
  unfold lexLe; infer_instance

/-- The comparison key of a route: the byte length of its HTTP rule path
(`http_match.path.len()`; 0 when HTTP rules are absent, in which case the
route is never a candidate) paired with its priority. -/
def candKey (r : Route) : Nat × Int :=
  ((match r.match_rules.http with | some hm => utf8Len hm.path | none => 0),
    r.priority)

/-- A matching candidate of `find_matching(t, u, M, P)` as the claim
describes it: stored under its own id, of the requested tenant and upstream,
enabled, with HTTP rules whose method list contains the parsed method and
whose path is a prefix of `P`. -/
def isCand (s : RouteRepo) (t u : Nat) (M P : Str) (r : Route) : Prop :=
  lookupA s.store r.id = some r ∧ r.tenant_id = t ∧ r.upstream_id = u ∧
  r.enabled = true ∧
  ∃ hm, r.match_rules.http = some hm ∧
    (∃ mm, parse_method M = some mm ∧ hm.methods.contains mm = true) ∧
    hm.path.isPrefixOf P = true

/-- The store keys every route under its own id, as `create` and `update` do
(`self.store.insert(route.id, route)`). -/
def Keyed (s : RouteRepo) : Prop := ∀ p ∈ s.store, p.2.id = p.1

instance (s : RouteRepo) : Decidable (Keyed s) := by
  unfold Keyed; infer_instance

theorem lexLe_refl (a : Nat × Int) : lexLe a a := by
  unfold lexLe; omega

theorem lexLe_of_lexLt {a b : Nat × Int} (h : lexLt a b) : lexLe a b := by
  unfold lexLt at h; unfold lexLe; omega

theorem lexLe_trans {a b c : Nat × Int} (h1 : lexLe a b) (h2 : lexLe b c) :
    lexLe a c := by
  unfold lexLe at h1 h2 ⊢; omega

theorem lexLt_of_lexLt_of_lexLe {a b c : Nat × Int} (h1 : lexLt a b)
    (h2 : lexLe b c) : lexLt a c := by
  unfold lexLt at h1 ⊢; unfold lexLe at h2; omega

theorem lexLe_of_not_lexLt {a b : Nat × Int} (h : ¬ lexLt a b) : lexLe b a := by
  unfold lexLt at h; unfold lexLe; omega

theorem routeCand_some_elim {t : Nat} {m : Option HttpMethod} {p : Str}
    {r : Route} {hm : HttpMatch} (h : routeCand t m p r = some hm) :
    r.tenant_id = t ∧ r.enabled = true ∧ r.match_rules.http = some hm ∧
      ∃ mm, m = some mm ∧ hm.methods.contains mm = true ∧
        hm.path.isPrefixOf p = true := by
  unfold routeCand at h
  split at h
  · exact Option.noConfusion h
  · split at h
    · exact Option.noConfusion h
    · split at h
      · exact Option.noConfusion h
      · split at h
        · exact Option.noConfusion h
        · split at h
          · exact Option.noConfusion h
          · split at h
            · exact Option.noConfusion h
            · cases h
              simp_all

theorem routeCand_some_intro {t : Nat} {p : Str} {r : Route} {hm : HttpMatch}
    {mm : HttpMethod} (ht : r.tenant_id = t) (hen : r.enabled = true)
    (hh : r.match_rules.http = some hm) (hcont : hm.methods.contains mm = true)
    (hpre : hm.path.isPrefixOf p = true) :
    routeCand t (some mm) p r = some hm := by
  unfold routeCand
  rw [if_neg (by simp [ht])]
  rw [if_neg (by simp [hen])]
  simp only [hh, hcont, hpre]
  simp

/-- The key of a route whose `routeCand` succeeded is the pair the loop
compares against. -/
theorem candKey_of_routeCand {t : Nat} {m : Option HttpMethod} {p : Str}
    {r : Route} {hm : HttpMatch} (h : routeCand t m p r = some hm) :
    candKey r = (utf8Len hm.path, r.priority) := by
  obtain ⟨_, _, hh, _⟩ := routeCand_some_elim h
  simp [candKey, hh]

/-- Every route the selection loop returns is the carried best or a stored
candidate from the scanned id list. -/
theorem findLoop_source (s : RouteRepo) (t : Nat) (m : Option HttpMethod)
    (p : Str) (ids : List Nat) : ∀ (best : Option Route) (bl : Nat) (bp : Int)
    (r : Route), findLoop s t m p ids best bl bp = some r →
    best = some r ∨ ∃ id, id ∈ ids ∧ lookupA s.store id = some r ∧
      ∃ hm, routeCand t m p r = some hm := by
  induction ids with
  | nil => intro best bl bp r h; exact .inl h
  | cons id ids ih =>
      intro best bl bp r h
      simp only [findLoop] at h
      cases hl : lookupA s.store id with
      | none =>
          simp only [hl] at h
          rcases ih best bl bp r h with h2 | ⟨id2, hmem, h3⟩
          · exact .inl h2
          · exact .inr ⟨id2, List.mem_cons_of_mem _ hmem, h3⟩
      | some route =>
          simp only [hl] at h
          cases hc : routeCand t m p route with
          | none =>
              simp only [hc] at h
              rcases ih best bl bp r h with h2 | ⟨id2, hmem, h3⟩
              · exact .inl h2
              · exact .inr ⟨id2, List.mem_cons_of_mem _ hmem, h3⟩
          | some hm =>
              simp only [hc] at h
              by_cases hcond : bl < utf8Len hm.path ∨
                  (utf8Len hm.path = bl ∧ bp < route.priority)
              · rw [if_pos hcond] at h
                rcases ih (some route) (utf8Len hm.path) route.priority r h
                  with h2 | ⟨id2, hmem, h3⟩
                · cases h2
                  exact .inr ⟨id, List.mem_cons_self id ids, hl, hm, hc⟩
                · exact .inr ⟨id2, List.mem_cons_of_mem _ hmem, h3⟩
              · rw [if_neg hcond] at h
                rcases ih best bl bp r h with h2 | ⟨id2, hmem, h3⟩
                · exact .inl h2
                · exact .inr ⟨id2, List.mem_cons_of_mem _ hmem, h3⟩

/-- The selection loop returns a route whose key dominates the carried pair,
strictly so when it started with no carried best, and dominates the key of
every stored candidate in the scanned id list. -/
theorem findLoop_max (s : RouteRepo) (t : Nat) (m : Option HttpMethod)
    (p : Str) (ids : List Nat) : ∀ (best : Option Route) (bl : Nat) (bp : Int),
    (∀ r0, best = some r0 → candKey r0 = (bl, bp)) →
    ∀ r, findLoop s t m p ids best bl bp = some r →
      lexLe (bl, bp) (candKey r) ∧
      (best = none → lexLt (bl, bp) (candKey r)) ∧
      ∀ id, id ∈ ids → ∀ r2 hm2, lookupA s.store id = some r2 →
        routeCand t m p r2 = some hm2 → lexLe (candKey r2) (candKey r) := by
  induction ids with
  | nil =>
      intro best bl bp hb r h
      have hk := hb r h
      refine ⟨by rw [hk]; exact lexLe_refl _, ?_, ?_⟩
      · intro hn; rw [hn] at h; exact Option.noConfusion h
      · intro id hid; exact absurd hid (List.not_mem_nil id)
  | cons id ids ih =>
      intro best bl bp hb r h
      simp only [findLoop] at h
      cases hl : lookupA s.store id with
      | none =>
          simp only [hl] at h
          obtain ⟨hge, hstr, hdom⟩ := ih best bl bp hb r h
          refine ⟨hge, hstr, ?_⟩
          intro id2 hid2 r2 hm2 hl2 hc2
          rcases List.mem_cons.mp hid2 with rfl | hid2m
          · rw [hl] at hl2; exact Option.noConfusion hl2
          · exact hdom id2 hid2m r2 hm2 hl2 hc2
      | some route =>
          simp only [hl] at h
          cases hc : routeCand t m p route with
          | none =>
              simp only [hc] at h
              obtain ⟨hge, hstr, hdom⟩ := ih best bl bp hb r h
              refine ⟨hge, hstr, ?_⟩
              intro id2 hid2 r2 hm2 hl2 hc2
              rcases List.mem_cons.mp hid2 with rfl | hid2m
              · rw [hl] at hl2; cases hl2; rw [hc] at hc2
                exact Option.noConfusion hc2
              · exact hdom id2 hid2m r2 hm2 hl2 hc2
          | some hm =>
              simp only [hc] at h
              have hkey := candKey_of_routeCand hc
              by_cases hcond : bl < utf8Len hm.path ∨
                  (utf8Len hm.path = bl ∧ bp < route.priority)
              · rw [if_pos hcond] at h
                have hb2 : ∀ r0, some route = some r0 →
                    candKey r0 = (utf8Len hm.path, route.priority) := by
                  intro r0 h0; cases h0; exact hkey
                obtain ⟨hge, _, hdom⟩ :=
                  ih (some route) (utf8Len hm.path) route.priority hb2 r h
                have hlt : lexLt (bl, bp) (candKey route) := by
                  rw [hkey]; unfold lexLt; dsimp only; omega
                have hrge : lexLe (candKey route) (candKey r) := by
                  rw [hkey]; exact hge
                have hslt : lexLt (bl, bp) (candKey r) :=
                  lexLt_of_lexLt_of_lexLe hlt hrge
                refine ⟨lexLe_of_lexLt hslt, fun _ => hslt, ?_⟩
                intro id2 hid2 r2 hm2 hl2 hc2
                rcases List.mem_cons.mp hid2 with rfl | hid2m
                · rw [hl] at hl2; cases hl2; rw [hc] at hc2; cases hc2
                  exact hrge
                · exact hdom id2 hid2m r2 hm2 hl2 hc2
              · rw [if_neg hcond] at h
                obtain ⟨hge, hstr, hdom⟩ := ih best bl bp hb r h
                have hle : lexLe (candKey route) (bl, bp) := by
                  rw [hkey]
                  push_neg at hcond
                  unfold lexLe; dsimp only; omega
                refine ⟨hge, hstr, ?_⟩
                intro id2 hid2 r2 hm2 hl2 hc2
                rcases List.mem_cons.mp hid2 with rfl | hid2m
                · rw [hl] at hl2; cases hl2; rw [hc] at hc2; cases hc2
                  exact lexLe_trans hle hge
                · exact hdom id2 hid2m r2 hm2 hl2 hc2

/-- Once a best route is carried it is never dropped, only replaced. -/
theorem findLoop_isSome_of_best (s : RouteRepo) (t : Nat)
    (m : Option HttpMethod) (p : Str) (ids : List Nat) :
    ∀ (r0 : Route) (bl : Nat) (bp : Int),
    (findLoop s t m p ids (some r0) bl bp).isSome = true := by
  induction ids with
  | nil => intro r0 bl bp; rfl
  | cons id ids ih =>
      intro r0 bl bp
      simp only [findLoop]
      cases hl : lookupA s.store id with
      | none => simp only [hl]; exact ih r0 bl bp
      | some route =>
          simp only [hl]
          cases hc : routeCand t m p route with
          | none => simp only [hc]; exact ih r0 bl bp
          | some hm =>
              simp only [hc]
              by_cases hcond : bl < utf8Len hm.path ∨
                  (utf8Len hm.path = bl ∧ bp < route.priority)
              · rw [if_pos hcond]; exact ih route (utf8Len hm.path) route.priority
              · rw [if_neg hcond]; exact ih r0 bl bp

/-- The selection loop succeeds whenever the scanned id list holds a stored
candidate whose key strictly exceeds the carried pair. -/
theorem findLoop_progress (s : RouteRepo) (t : Nat) (m : Option HttpMethod)
    (p : Str) (ids : List Nat) : ∀ (best : Option Route) (bl : Nat) (bp : Int),
    (∃ id, id ∈ ids ∧ ∃ r2 hm2, lookupA s.store id = some r2 ∧
      routeCand t m p r2 = some hm2 ∧ lexLt (bl, bp) (candKey r2)) →
    (findLoop s t m p ids best bl bp).isSome = true := by
  induction ids with
  | nil =>
      rintro best bl bp ⟨id, hid, -⟩
      exact absurd hid (List.not_mem_nil id)
  | cons id ids ih =>
      rintro best bl bp ⟨id2, hid2, r2, hm2, hl2, hc2, hlt2⟩
      simp only [findLoop]
      cases hl : lookupA s.store id with
      | none =>
          simp only [hl]
          rcases List.mem_cons.mp hid2 with rfl | hid2m
          · rw [hl] at hl2; exact Option.noConfusion hl2
          · exact ih best bl bp ⟨id2, hid2m, r2, hm2, hl2, hc2, hlt2⟩
      | some route =>
          simp only [hl]
          cases hc : routeCand t m p route with
          | none =>
              simp only [hc]
              rcases List.mem_cons.mp hid2 with rfl | hid2m
              · rw [hl] at hl2; cases hl2; rw [hc] at hc2
                exact Option.noConfusion hc2
              · exact ih best bl bp ⟨id2, hid2m, r2, hm2, hl2, hc2, hlt2⟩
          | some hm =>
              simp only [hc]
              by_cases hcond : bl < utf8Len hm.path ∨
                  (utf8Len hm.path = bl ∧ bp < route.priority)
              · rw [if_pos hcond]
                exact findLoop_isSome_of_best s t m p ids route
                  (utf8Len hm.path) route.priority
              · rw [if_neg hcond]
                rcases List.mem_cons.mp hid2 with rfl | hid2m
                · exfalso
                  rw [hl] at hl2; cases hl2; rw [hc] at hc2; cases hc2
                  rw [candKey_of_routeCand hc] at hlt2
                  unfold lexLt at hlt2
                  push_neg at hcond
                  dsimp only at hlt2
                  omega
                · exact ih best bl bp ⟨id2, hid2m, r2, hm2, hl2, hc2, hlt2⟩

/-- Under the index invariant, a stored route's id occurs in the index entry
of its upstream. -/
theorem mem_idx_of_stored {s : RouteRepo} (hInv : Inv s) {r : Route} {u : Nat}
    (hl : lookupA s.store r.id = some r) (hu : r.upstream_id = u) :
    r.id ∈ idxGet s u := by
  have h1 := inv_store_indexed hInv hl
  rw [hu] at h1
  by_contra hnm
  rw [List.count_eq_zero_of_not_mem hnm] at h1
  exact absurd h1 (by omega)

/-- Claim C1 (corrected): `find_matching(t, u, M, P)` only returns stored,
enabled routes of tenant `t` and upstream `u` whose HTTP rules contain the
parsed method of `M` (an unparsable method string matches nothing) and whose
path is a prefix of `P`, and the returned route maximizes the pair
`(path byte length, priority)` lexicographically among all such candidates.
But a route is returned precisely when some candidate's key strictly exceeds
the loop's sentinel `(0, i32::MIN)`: a candidate whose HTTP path is empty and
whose priority is `i32::MIN` never beats the sentinel's strict comparison, so
with only such candidates — and in particular with none at all — the result
is `NotFound` with entity `"route"`. -/
theorem c1_find_matching (s : RouteRepo) (t u : Nat) (M P : Str)
    (hInv : Inv s) (hK : Keyed s) :
    (∀ r, s.find_matching t u M P = .ok r →
      isCand s t u M P r ∧
      ∀ r2, isCand s t u M P r2 → lexLe (candKey r2) (candKey r)) ∧
    ((∃ r2, isCand s t u M P r2 ∧ lexLt (0, i32min) (candKey r2)) ↔
      (∃ r, s.find_matching t u M P = .ok r)) ∧
    ((∀ r2, isCand s t u M P r2 → ¬ lexLt (0, i32min) (candKey r2)) →
      s.find_matching t u M P = .error (.NotFound "route".data 0)) := by
  have hcand_of : ∀ r,
      findLoop s t (parse_method M) P (idxGet s u) none 0 i32min = some r →
      isCand s t u M P r ∧ lexLt (0, i32min) (candKey r) ∧
        ∀ r2, isCand s t u M P r2 → lexLe (candKey r2) (candKey r) := by
    intro r hF
    rcases findLoop_source s t (parse_method M) P (idxGet s u) none 0 i32min
        r hF with h0 | ⟨id, hid, hlk, hm, hc⟩
    · exact Option.noConfusion h0
    · have hid_eq : r.id = id := hK (id, r) (mem_of_lookupA_eq_some hlk)
      have hstored : lookupA s.store r.id = some r := by rw [hid_eq]; exact hlk
      obtain ⟨r3, hr3l, hr3u⟩ := inv_ids_backed hInv hid
      rw [hlk] at hr3l
      cases hr3l
      obtain ⟨ht, hen, hh, mm, hmeq, hcont, hpre⟩ := routeCand_some_elim hc
      have hCand : isCand s t u M P r :=
        ⟨hstored, ht, hr3u, hen, hm, hh, ⟨mm, hmeq, hcont⟩, hpre⟩
      obtain ⟨hge, hstr, hdom⟩ := findLoop_max s t (parse_method M) P
        (idxGet s u) none 0 i32min (fun r0 h0 => Option.noConfusion h0) r hF
      refine ⟨hCand, hstr rfl, ?_⟩
      intro r2 hc2
      obtain ⟨hst2, ht2, hu2, hen2, hm2, hh2, ⟨mm2, hmeq2, hcont2⟩, hpre2⟩ := hc2
      have hmem2 : r2.id ∈ idxGet s u := mem_idx_of_stored hInv hst2 hu2
      have hrc2 : routeCand t (parse_method M) P r2 = some hm2 := by
        rw [hmeq2]; exact routeCand_some_intro ht2 hen2 hh2 hcont2 hpre2
      exact hdom r2.id hmem2 r2 hm2 hst2 hrc2
  refine ⟨?_, ⟨?_, ?_⟩, ?_⟩
  · intro r hok
    unfold RouteRepo.find_matching at hok
    cases hF : findLoop s t (parse_method M) P (idxGet s u) none 0 i32min with
    | none => simp only [hF] at hok; exact Except.noConfusion hok
    | some r3 =>
        simp only [hF] at hok
        have hrr : r3 = r := by injection hok
        rw [hrr] at hF
        obtain ⟨hC, _, hmax⟩ := hcand_of r hF
        exact ⟨hC, hmax⟩
  · rintro ⟨r2, hc2, hlt2⟩
    obtain ⟨hst2, ht2, hu2, hen2, hm2, hh2, ⟨mm2, hmeq2, hcont2⟩, hpre2⟩ := hc2
    have hmem2 : r2.id ∈ idxGet s u := mem_idx_of_stored hInv hst2 hu2
    have hrc2 : routeCand t (parse_method M) P r2 = some hm2 := by
      rw [hmeq2]; exact routeCand_some_intro ht2 hen2 hh2 hcont2 hpre2
    have hS := findLoop_progress s t (parse_method M) P (idxGet s u) none 0
      i32min ⟨r2.id, hmem2, r2, hm2, hst2, hrc2, hlt2⟩
    obtain ⟨r, hF⟩ := Option.isSome_iff_exists.mp hS
    refine ⟨r, ?_⟩
    unfold RouteRepo.find_matching
    simp only [hF]
  · rintro ⟨r, hok⟩
    unfold RouteRepo.find_matching at hok
    cases hF : findLoop s t (parse_method M) P (idxGet s u) none 0 i32min with
    | none => simp only [hF] at hok; exact Except.noConfusion hok
    | some r3 =>
        obtain ⟨hC, hstr, _⟩ := hcand_of r3 hF
        exact ⟨r3, hC, hstr⟩
  · intro hnone
    unfold RouteRepo.find_matching
    cases hF : findLoop s t (parse_method M) P (idxGet s u) none 0 i32min with
    | none => simp only [hF]
    | some r3 =>
        obtain ⟨hC, hstr, _⟩ := hcand_of r3 hF
        exact absurd hstr (hnone r3 hC)

/-- HTTP rules with an empty path: a prefix of every request path. -/
def c1badHm : HttpMatch :=
  { methods := [.Get], path := [], query_allowlist := [],
    path_suffix_mode := .Disabled }

/-- A stored, enabled route with an empty HTTP path and priority `i32::MIN`:
a matching candidate the selection loop can never pick. -/
def c1badRoute : Route :=
  { id := 9, tenant_id := 2, upstream_id := 3,
    match_rules := { http := some c1badHm, grpc := none },
    priority := i32min, enabled := true }

/-- HTTP rules matching GET requests under `/a`. -/
def c1goodHm : HttpMatch :=
  { methods := [.Get], path := "/a".data, query_allowlist := [],
    path_suffix_mode := .Disabled }

/-- An ordinary enabled route that `find_matching` does return. -/
def c1goodRoute : Route :=
  { id := 1, tenant_id := 2, upstream_id := 3,
    match_rules := { http := some c1goodHm, grpc := none },
    priority := 0, enabled := true }

/-- Counterexample to the claim's unconditional iff: in a well-formed
repository a stored, enabled route of the requested tenant and upstream whose
HTTP rules contain GET and whose empty path prefixes the request path — a
matching candidate in the claim's sense — is never returned when its priority
is `i32::MIN`, because the loop seeds `(best_path_len, best_priority)` with
the sentinel `(0, i32::MIN)` and only a strictly greater key replaces it;
`find_matching` answers `NotFound` instead. -/
theorem c1_sentinel_misses_min_priority_candidate :
    Inv (RouteRepo.empty.create c1badRoute) ∧
    Keyed (RouteRepo.empty.create c1badRoute) ∧
    isCand (RouteRepo.empty.create c1badRoute) 2 3 "GET".data "/x".data
      c1badRoute ∧
    (RouteRepo.empty.create c1badRoute).find_matching 2 3 "GET".data
      "/x".data = .error (.NotFound "route".data 0) :=
  ⟨by decide, by decide,
    ⟨rfl, rfl, rfl, rfl, c1badHm, rfl, ⟨.Get, by decide, rfl⟩, rfl⟩,
    by decide⟩

theorem c1_find_matching_witness :
    ∃ r, (RouteRepo.empty.create c1goodRoute).find_matching 2 3 "GET".data
      "/ab".data = .ok r :=
  (c1_find_matching (RouteRepo.empty.create c1goodRoute) 2 3 "GET".data
    "/ab".data (by decide) (by decide)).2.1.mp
    ⟨c1goodRoute, ⟨rfl, rfl, rfl, rfl, c1goodHm, rfl, ⟨.Get, by decide, rfl⟩,
      by decide⟩, by decide⟩

-- ---------------------------------------------------------------------------
-- C2: cascade delete is tenant-scoped
-- ---------------------------------------------------------------------------

theorem tenantHit_false_of_survHit {st : List (Nat × Route)} {t k : Nat}
    (h : survHit st t k = true) : tenantHit st t k = false := by
  unfold survHit at h
  unfold tenantHit
  cases hl : lookupA st k with
  | none => rfl
  | some r =>
      simp only [hl] at h ⊢
      simpa using h

/-- A route of another tenant fails the first `continue` guard. -/
theorem routeCand_none_of_tenant_ne {t2 : Nat} {m : Option HttpMethod}
    {p : Str} {r : Route} (h : r.tenant_id ≠ t2) :
    routeCand t2 m p r = none := by
  unfold routeCand
  rw [if_pos h]

theorem filterMap_filter_congr {α β : Type} (f : α → Bool)
    (g1 g2 : α → Option β) (l : List α)
    (h1 : ∀ a ∈ l, f a = true → g2 a = g1 a)
    (h2 : ∀ a ∈ l, f a = false → g1 a = none) :
    (l.filter f).filterMap g2 = l.filterMap g1 := by
  induction l with
  | nil => rfl
  | cons a l ih =>
      rw [List.filter_cons]
      by_cases hf : f a = true
      · rw [if_pos hf, List.filterMap_cons, List.filterMap_cons,
          h1 a (List.mem_cons_self a l) hf]
        cases g1 a with
        | none =>
            exact ih (fun x hx => h1 x (List.mem_cons_of_mem _ hx))
              (fun x hx => h2 x (List.mem_cons_of_mem _ hx))
        | some b =>
            rw [ih (fun x hx => h1 x (List.mem_cons_of_mem _ hx))
              (fun x hx => h2 x (List.mem_cons_of_mem _ hx))]
      · rw [if_neg hf, List.filterMap_cons,
          h2 a (List.mem_cons_self a l) (by simpa using hf)]
        exact ih (fun x hx => h1 x (List.mem_cons_of_mem _ hx))
          (fun x hx => h2 x (List.mem_cons_of_mem _ hx))

/-- The selection loop ignores ids that are filtered out as long as each
filtered-out id is skipped anyway (missing row or failing guards) and kept
ids look up identically in both stores. -/
theorem findLoop_filter_congr (s1 s2 : RouteRepo) (t2 : Nat)
    (m : Option HttpMethod) (p : Str) (f : Nat → Bool) (ids : List Nat)
    (hkeep : ∀ id ∈ ids, f id = true →
      lookupA s2.store id = lookupA s1.store id)
    (hdrop : ∀ id ∈ ids, f id = false → ∀ r, lookupA s1.store id = some r →
      routeCand t2 m p r = none) :
    ∀ (best : Option Route) (bl : Nat) (bp : Int),
    findLoop s2 t2 m p (ids.filter f) best bl bp =
      findLoop s1 t2 m p ids best bl bp := by
  induction ids with
  | nil => intro best bl bp; rfl
  | cons id rest ih =>
      intro best bl bp
      have ih2 := ih (fun x hx => hkeep x (List.mem_cons_of_mem _ hx))
        (fun x hx => hdrop x (List.mem_cons_of_mem _ hx))
      rw [List.filter_cons]
      by_cases hf : f id = true
      · rw [if_pos hf]
        simp only [findLoop]
        rw [hkeep id (List.mem_cons_self id rest) hf]
        cases hl : lookupA s1.store id with
        | none => simp only [hl]; exact ih2 best bl bp
        | some route =>
            simp only [hl]
            cases hc : routeCand t2 m p route with
            | none => simp only [hc]; exact ih2 best bl bp
            | some hm =>
                simp only [hc]
                by_cases hcond : bl < utf8Len hm.path ∨
                    (utf8Len hm.path = bl ∧ bp < route.priority)
                · rw [if_pos hcond, if_pos hcond]
                  exact ih2 (some route) (utf8Len hm.path) route.priority
                · rw [if_neg hcond, if_neg hcond]
                  exact ih2 best bl bp
      · have hf2 : f id = false := by simpa using hf
        rw [if_neg hf]
        simp only [findLoop]
        cases hl : lookupA s1.store id with
        | none => simp only [hl]; exact ih2 best bl bp
        | some route =>
            simp only [hl, hdrop id (List.mem_cons_self id rest) hf2 route hl]
            exact ih2 best bl bp

/-- After the cascade delete, the index entry of the swept upstream is the
surviving (other-tenant) part of the old entry. -/
theorem idxGet_dbu (s : RouteRepo) (t u : Nat) (hnd : (idxGet s u).Nodup) :
    idxGet (s.delete_by_upstream t u).1 u =
      (idxGet s u).filter (fun id => survHit s.store t id) := by
  have hsurv := sweepLoop_surv t (idxGet s u) s.store hnd
  show (lookupA (s.delete_by_upstream t u).1.upstream_index u).getD [] = _
  rw [lookupA_dbu_index, if_pos rfl, ← hsurv]
  by_cases hs : (sweepLoop t (idxGet s u) s.store).2.2 ≠ []
  · rw [if_pos hs, Option.getD_some]
  · rw [if_neg hs]
    push_neg at hs
    rw [hs, Option.getD_none]

theorem tenantHit_iff {st : List (Nat × Route)} {t k : Nat} {r : Route}
    (hl : lookupA st k = some r) :
    tenantHit st t k = true ↔ r.tenant_id = t := by
  unfold tenantHit
  simp only [hl]
  simp

theorem survHit_iff {st : List (Nat × Route)} {t k : Nat} {r : Route}
    (hl : lookupA st k = some r) :
    survHit st t k = true ↔ r.tenant_id ≠ t := by
  unfold survHit
  simp only [hl]
  simp

/-- Effect of the cascade delete on each store row: rows of the swept tenant
and upstream vanish, all others are untouched. -/
theorem dbu_store_lookup {s : RouteRepo} (t u : Nat) (hInv : Inv s) :
    ∀ id r, lookupA s.store id = some r →
      lookupA (s.delete_by_upstream t u).1.store id =
        (if r.tenant_id = t ∧ r.upstream_id = u then none else some r) := by
  intro id r hl
  have hndids : (idxGet s u).Nodup := inv_idx_nodup hInv u
  have hstore2 : (s.delete_by_upstream t u).1.store =
      (sweepLoop t (idxGet s u) s.store).1 := rfl
  rw [hstore2, sweepLoop_lookup t (idxGet s u) s.store hndids id]
  by_cases hc : r.tenant_id = t ∧ r.upstream_id = u
  · rw [if_pos hc]
    have hmem : id ∈ idxGet s u := by
      have h1 := inv_store_indexed hInv hl
      rw [hc.2] at h1
      by_contra hnm
      rw [List.count_eq_zero_of_not_mem hnm] at h1
      omega
    rw [if_pos ⟨hmem, (tenantHit_iff hl).mpr hc.1⟩]
  · rw [if_neg hc]
    push_neg at hc
    by_cases hu : r.upstream_id = u
    · have htne : r.tenant_id ≠ t := fun he => hc he hu
      rw [if_neg (fun hcc => htne ((tenantHit_iff hl).mp hcc.2))]
      exact hl
    · have hnm : id ∉ idxGet s u := by
        intro hm
        obtain ⟨r2, hr2, hr2u⟩ := inv_ids_backed hInv hm
        rw [hl] at hr2
        cases hr2
        exact hu hr2u
      rw [if_neg (fun hcc => hnm hcc.1)]
      exact hl

/-- Rows of surviving ids (other tenants) are untouched by the sweep. -/
theorem dbu_keep_lookup {s : RouteRepo} (t u : Nat) (hInv : Inv s) :
    ∀ id, survHit s.store t id = true →
      lookupA (s.delete_by_upstream t u).1.store id = lookupA s.store id := by
  intro id hsv
  have hndids : (idxGet s u).Nodup := inv_idx_nodup hInv u
  have hstore2 : (s.delete_by_upstream t u).1.store =
      (sweepLoop t (idxGet s u) s.store).1 := rfl
  rw [hstore2, sweepLoop_lookup t (idxGet s u) s.store hndids id]
  rw [if_neg (fun hcc => by
    rw [tenantHit_false_of_survHit hsv] at hcc
    exact Bool.noConfusion hcc.2)]

/-- The count the cascade delete returns is the number of stored rows of the
swept tenant and upstream. -/
theorem dbu_count {s : RouteRepo} (t u : Nat) (hInv : Inv s) :
    (s.delete_by_upstream t u).2 =
      (s.store.filter (fun p =>
        p.2.tenant_id = t ∧ p.2.upstream_id = u)).length := by
  have hndids : (idxGet s u).Nodup := inv_idx_nodup hInv u
  have hcnt : (s.delete_by_upstream t u).2 =
      ((idxGet s u).filter (fun id => tenantHit s.store t id)).length :=
    sweepLoop_count t (idxGet s u) s.store hndids
  rw [hcnt]
  have hl1nd : ((idxGet s u).filter
      (fun id => tenantHit s.store t id)).Nodup := hndids.filter _
  have hl2nd : ((s.store.filter (fun p =>
      p.2.tenant_id = t ∧ p.2.upstream_id = u)).map Prod.fst).Nodup :=
    List.Nodup.sublist (List.Sublist.map Prod.fst (List.filter_sublist _))
      hInv.1
  have hmemiff : ∀ id, id ∈ (idxGet s u).filter
      (fun id => tenantHit s.store t id) ↔
      id ∈ (s.store.filter (fun p =>
        p.2.tenant_id = t ∧ p.2.upstream_id = u)).map Prod.fst := by
    intro id
    constructor
    · intro h
      obtain ⟨hm, hth⟩ := List.mem_filter.mp h
      obtain ⟨r, hr, hru⟩ := inv_ids_backed hInv hm
      have hrt : r.tenant_id = t := (tenantHit_iff hr).mp hth
      exact List.mem_map.mpr ⟨(id, r), List.mem_filter.mpr
        ⟨mem_of_lookupA_eq_some hr, by simp [hrt, hru]⟩, rfl⟩
    · intro h
      obtain ⟨⟨pid, pr⟩, hmem, hfst⟩ := List.mem_map.mp h
      cases hfst
      obtain ⟨hmem2, hpred⟩ := List.mem_filter.mp hmem
      have hpred2 : pr.tenant_id = t ∧ pr.upstream_id = u :=
        of_decide_eq_true hpred
      have hlk : lookupA s.store pid = some pr :=
        lookupA_eq_some_of_mem hInv.1 hmem2
      have hcnt2 := inv_store_indexed hInv hlk
      rw [hpred2.2] at hcnt2
      have hm : pid ∈ idxGet s u := by
        by_contra hnm
        rw [List.count_eq_zero_of_not_mem hnm] at hcnt2
        omega
      exact List.mem_filter.mpr ⟨hm, (tenantHit_iff hlk).mpr hpred2.1⟩
  have hperm : ((idxGet s u).filter (fun id => tenantHit s.store t id)).Perm
      ((s.store.filter (fun p =>
        p.2.tenant_id = t ∧ p.2.upstream_id = u)).map Prod.fst) := by
    rw [List.perm_iff_count]
    intro a
    by_cases ha : a ∈ (idxGet s u).filter (fun id => tenantHit s.store t id)
    · rw [List.count_eq_one_of_mem hl1nd ha,
        List.count_eq_one_of_mem hl2nd ((hmemiff a).mp ha)]
    · rw [List.count_eq_zero_of_not_mem ha,
        List.count_eq_zero_of_not_mem (fun hb => ha ((hmemiff a).mpr hb))]
  rw [hperm.length_eq, List.length_map]

/-- Claim C2 (confirmed): `delete_by_upstream(t, u)` (the cascade step of
`delete_upstream`) removes from the store exactly the rows whose route has
`tenant_id = t` and `upstream_id = u` and returns their number; every route
of a different tenant `t2` with `upstream_id = u` is still stored, its id is
re-inserted into the upstream index entry, and both `list_by_upstream(t2, u,
top, skip)` and `find_matching(t2, u, M, P)` answer exactly as before the
delete. -/
theorem c2_delete_by_upstream (s : RouteRepo) (t t2 u : Nat)
    (hInv : Inv s) (hne : t2 ≠ t) :
    (∀ id r, lookupA s.store id = some r →
      lookupA (s.delete_by_upstream t u).1.store id =
        (if r.tenant_id = t ∧ r.upstream_id = u then none else some r)) ∧
    (s.delete_by_upstream t u).2 =
      (s.store.filter (fun p =>
        p.2.tenant_id = t ∧ p.2.upstream_id = u)).length ∧
    (∀ id r, lookupA s.store id = some r → r.tenant_id = t2 →
      r.upstream_id = u →
      lookupA (s.delete_by_upstream t u).1.store id = some r ∧
      id ∈ idxGet (s.delete_by_upstream t u).1 u) ∧
    (∀ top skip, (s.delete_by_upstream t u).1.list_by_upstream t2 u top skip =
      s.list_by_upstream t2 u top skip) ∧
    (∀ M P, (s.delete_by_upstream t u).1.find_matching t2 u M P =
      s.find_matching t2 u M P) := by
  have hndids : (idxGet s u).Nodup := inv_idx_nodup hInv u
  have hidx := idxGet_dbu s t u hndids
  have hdropT : ∀ id, survHit s.store t id = false →
      ∀ r, lookupA s.store id = some r → r.tenant_id = t := by
    intro id hsv r hl
    by_contra hrt
    rw [(survHit_iff hl).mpr hrt] at hsv
    exact Bool.noConfusion hsv
  refine ⟨dbu_store_lookup t u hInv, dbu_count t u hInv, ?_, ?_, ?_⟩
  · intro id r hl hrt hru
    have hsv : survHit s.store t id = true :=
      (survHit_iff hl).mpr (fun he => hne (hrt ▸ he))
    refine ⟨by rw [dbu_keep_lookup t u hInv id hsv]; exact hl, ?_⟩
    rw [hidx]
    have hmem : id ∈ idxGet s u := by
      have h1 := inv_store_indexed hInv hl
      rw [hru] at h1
      by_contra hnm
      rw [List.count_eq_zero_of_not_mem hnm] at h1
      omega
    exact List.mem_filter.mpr ⟨hmem, hsv⟩
  · intro top skip
    have hcongr : ((idxGet s u).filter
        (fun id => survHit s.store t id)).filterMap (fun id =>
          match lookupA (s.delete_by_upstream t u).1.store id with
          | some r => if r.tenant_id = t2 then some r else none
          | none => none) =
        (idxGet s u).filterMap (fun id =>
          match lookupA s.store id with
          | some r => if r.tenant_id = t2 then some r else none
          | none => none) := by
      refine filterMap_filter_congr _ _ _ _ ?_ ?_
      · intro id hmem hsv
        rw [dbu_keep_lookup t u hInv id hsv]
      · intro id hmem hsv
        cases hl : lookupA s.store id with
        | none => rfl
        | some r =>
            have hrt : r.tenant_id = t := hdropT id hsv r hl
            simp only [hl]
            rw [if_neg (fun he => hne ((hrt.symm.trans he).symm))]
    simp only [RouteRepo.list_by_upstream]
    rw [hidx, hcongr]
  · intro M P
    unfold RouteRepo.find_matching
    rw [hidx, findLoop_filter_congr s (s.delete_by_upstream t u).1 t2
      (parse_method M) P (fun id => survHit s.store t id) (idxGet s u)
      (fun id _ hsv => dbu_keep_lookup t u hInv id hsv)
      (fun id _ hsv r hl => routeCand_none_of_tenant_ne
        (fun he => hne (((hdropT id hsv r hl).symm.trans he).symm)))]

/-- A route of tenant 10 to be swept away. -/
def c2routeA : Route :=
  { id := 1, tenant_id := 10, upstream_id := 3,
    match_rules := { http := some c1goodHm, grpc := none },
    priority := 0, enabled := true }

/-- A route of tenant 11 hanging off the same upstream. -/
def c2routeB : Route :=
  { id := 2, tenant_id := 11, upstream_id := 3,
    match_rules := { http := some c1goodHm, grpc := none },
    priority := 0, enabled := true }

/-- A two-tenant repository sharing upstream 3. -/
def c2state : RouteRepo :=
  (RouteRepo.empty.create c2routeA).create c2routeB

theorem c2_delete_by_upstream_witness :
    lookupA ((c2state.delete_by_upstream 10 3).1).store 2 = some c2routeB ∧
    2 ∈ idxGet (c2state.delete_by_upstream 10 3).1 3 :=
  (c2_delete_by_upstream c2state 10 11 3 (by decide) (by decide)).2.2.1
    2 c2routeB (by decide) rfl rfl

-- ---------------------------------------------------------------------------
-- C7: the query allowlist stage of proxy_request
-- (src/infra/proxy/service.rs, step 2b)
-- ---------------------------------------------------------------------------

/-- ASCII apostrophe, spelled by code point. -/
def squote : Char := Char.ofNat 39

/-- The `Validation` detail of step 2b, embedding
`format!("query parameter {key} is not in the routes query_allowlist")`
with the key wrapped in apostrophes as the source writes it. -/
def queryDetail (key : Str) : Str :=
  "query parameter ".data ++ ([squote] ++ key ++ [squote]) ++
    " is not in the route".data ++ [squote] ++ "s query_allowlist".data

/-- The `for (key, _) in &query_params` loop body of step 2b: the first key
missing from the allowlist, if any (the loop returns on the first miss). -/
def query_allowlist_check (allow : List Str) :
    List (Str × Str) → Option Str
  | [] => none
  | (key, _) :: rest =>
      if !(allow.contains key) then some key
      else query_allowlist_check allow rest

/-- Embeds step 2b of `DataPlaneServiceImpl::proxy_request`: when the matched
route has HTTP rules and the decoded query is non-empty, every key must be in
the allowlist, else `Validation`. -/
def validate_query (route : Route) (query_params : List (Str × Str))
    (instance_uri : Str) : Except DomainError Unit :=
  match route.match_rules.http with
  | some hm =>
      if query_params ≠ [] then
        match query_allowlist_check hm.query_allowlist query_params with
        | some key => .error (.Validation (queryDetail key) instance_uri)
        | none => .ok ()
      else .ok ()
  | none => .ok ()

theorem qac_none_iff (allow : List Str) (qp : List (Str × Str)) :
    query_allowlist_check allow qp = none ↔
      ∀ kv ∈ qp, allow.contains kv.1 = true := by
  induction qp with
  | nil => simp [query_allowlist_check]
  | cons kv rest ih =>
      obtain ⟨k, v⟩ := kv
      unfold query_allowlist_check
      by_cases hc : allow.contains k = true
      · rw [if_neg (by rw [hc]; simp)]
        constructor
        · intro h kv2 hm2
          rcases List.mem_cons.mp hm2 with rfl | hm3
          · exact hc
          · exact (ih.mp h) kv2 hm3
        · intro h
          exact ih.mpr (fun kv2 hm2 => h kv2 (List.mem_cons_of_mem _ hm2))
      · have hc2 : allow.contains k = false := by simpa using hc
        rw [if_pos (by rw [hc2]; rfl)]
        constructor
        · intro h
          exact Option.noConfusion h
        · intro h
          exact absurd (h (k, v) (List.mem_cons_self _ _)) hc

/-- Claim C7 (confirmed): for a matched route (whose HTTP rules are present),
step 2b fails iff the decoded query pair list is non-empty and holds a key
outside the allowlist; the failure is always a `Validation` error carrying
the request instance; an empty allowlist rejects every non-empty query and an
empty query always passes. -/
theorem c7_query_allowlist (route : Route) (hm : HttpMatch)
    (qp : List (Str × Str)) (inst : Str)
    (hhm : route.match_rules.http = some hm) :
    ((∃ e, validate_query route qp inst = .error e) ↔
      (qp ≠ [] ∧ ∃ kv ∈ qp, hm.query_allowlist.contains kv.1 = false)) ∧
    (∀ e, validate_query route qp inst = .error e →
      ∃ d, e = .Validation d inst) ∧
    (hm.query_allowlist = [] → qp ≠ [] →
      ∃ e, validate_query route qp inst = .error e) ∧
    (qp = [] → validate_query route qp inst = .ok ()) := by
  have hv : validate_query route qp inst =
      (if qp ≠ [] then
        (match query_allowlist_check hm.query_allowlist qp with
        | some key => .error (.Validation (queryDetail key) inst)
        | none => .ok ())
      else .ok ()) := by
    unfold validate_query
    simp only [hhm]
  by_cases hqp : qp = []
  · subst hqp
    rw [if_neg (by simp)] at hv
    refine ⟨?_, ?_, ?_, fun _ => hv⟩
    · constructor
      · rintro ⟨e, he⟩
        rw [hv] at he
        exact Except.noConfusion he
      · rintro ⟨h, -⟩
        exact absurd rfl h
    · intro e he
      rw [hv] at he
      exact Except.noConfusion he
    · intro _ h
      exact absurd rfl h
  · rw [if_pos hqp] at hv
    cases hchk : query_allowlist_check hm.query_allowlist qp with
    | some k =>
        simp only [hchk] at hv
        have hex : ∃ kv ∈ qp, hm.query_allowlist.contains kv.1 = false := by
          have hnall : ¬ ∀ kv ∈ qp, hm.query_allowlist.contains kv.1 = true := by
            intro hall
            rw [(qac_none_iff _ _).mpr hall] at hchk
            exact Option.noConfusion hchk
          push_neg at hnall
          obtain ⟨kv, hmem, hne2⟩ := hnall
          exact ⟨kv, hmem, by simpa using hne2⟩
        refine ⟨?_, ?_, ?_, fun h => absurd h hqp⟩
        · exact ⟨fun _ => ⟨hqp, hex⟩, fun _ =>
            ⟨.Validation (queryDetail k) inst, hv⟩⟩
        · intro e he
          rw [hv] at he
          have he2 : DomainError.Validation (queryDetail k) inst = e := by
            injection he
          exact ⟨queryDetail k, he2.symm⟩
        · intro _ _
          exact ⟨.Validation (queryDetail k) inst, hv⟩
    | none =>
        simp only [hchk] at hv
        have hall := (qac_none_iff _ _).mp hchk
        refine ⟨?_, ?_, ?_, fun h => absurd h hqp⟩
        · constructor
          · rintro ⟨e, he⟩
            rw [hv] at he
            exact Except.noConfusion he
          · rintro ⟨-, kv, hmem, hfalse⟩
            rw [hall kv hmem] at hfalse
            exact Bool.noConfusion hfalse
        · intro e he
          rw [hv] at he
          exact Except.noConfusion he
        · intro halw _
          obtain ⟨kv, hmem⟩ := List.exists_mem_of_ne_nil qp hqp
          have := hall kv hmem
          rw [halw] at this
          simp at this

/-- HTTP rules with an empty query allowlist. -/
def c7hm : HttpMatch :=
  { methods := [.Get], path := "/a".data, query_allowlist := [],
    path_suffix_mode := .Disabled }

/-- A matched route with an empty query allowlist. -/
def c7route : Route :=
  { id := 4, tenant_id := 2, upstream_id := 3,
    match_rules := { http := some c7hm, grpc := none },
    priority := 0, enabled := true }

theorem c7_query_allowlist_witness :
    ∃ e, validate_query c7route [("a".data, "1".data)] [] = .error e :=
  (c7_query_allowlist c7route c7hm [("a".data, "1".data)] [] rfl).2.2.1
    rfl (by decide)

-- ---------------------------------------------------------------------------
-- C6: response header sanitization
-- (src/infra/proxy/headers.rs, src/api/rest/handlers/proxy.rs)
-- ---------------------------------------------------------------------------

/-- `HOP_BY_HOP_HEADERS` from `src/infra/proxy/headers.rs`. -/
def HOP_BY_HOP_HEADERS : List Str :=
  ["connection".data, "keep-alive".data, "proxy-authenticate".data,
    "proxy-authorization".data, "te".data, "trailer".data,
    "transfer-encoding".data, "upgrade".data]

/-- ASCII lowercasing of one character, the effect of `to_lowercase` on the
ASCII connection tokens. -/
def lowerChar (c : Char) : Char :=
  if 'A' ≤ c && c ≤ 'Z' then Char.ofNat (c.toNat + 32) else c

/-- The extra symbol characters valid in an HTTP header name (token chars
besides letters and digits); apostrophe and backtick spelled by code point. -/
def headerNameSymbols : List Char :=
  ['!', '#', '$', '%', '&', Char.ofNat 39, Char.ofNat 42, '+', '-', '.',
    '^', '_', Char.ofNat 96, '|', '~']

/-- One valid header-name character. Models the byte table of
`HeaderName::from_bytes` restricted to lowercase input: `from_bytes` also
accepts uppercase letters (normalizing them), but every name it is applied
to here has already been lowercased. -/
def headerNameChar (c : Char) : Bool :=
  ('a' ≤ c && c ≤ 'z') || ('0' ≤ c && c ≤ '9') || headerNameSymbols.contains c

/-- `HeaderName::from_bytes(name).is_ok()` on a lowercased name. -/
def headerNameValid (s : Str) : Bool :=
  !(s = [] : Bool) && s.all headerNameChar

/-- A header map: name/value pairs in insertion order; duplicate names model
the multimap. Names are stored lowercase, the `http` crate's `HeaderName`
invariant; values are embedded as decoded strings. -/
def lookupH (headers : List (Str × Str)) (name : Str) : Option Str :=
  match headers.find? (fun p => p.1 = name) with
  | some p => some p.2
  | none => none

/-- `HeaderMap::remove`: drops every value stored under the name. -/
def removeH (headers : List (Str × Str)) (name : Str) : List (Str × Str) :=
  headers.filter (fun p => p.1 ≠ name)

/-- `HeaderValue::to_str().ok()`: succeeds iff the value is visible ASCII
(or tab). -/
def headerValueToStr (v : Str) : Option Str :=
  if v.all (fun c => (32 ≤ c.toNat && c.toNat < 127) || c.toNat = 9) then
    some v
  else none

/-- Rust `str::trim` on the ASCII connection tokens. -/
def trimStr (s : Str) : Str :=
  ((s.dropWhile Char.isWhitespace).reverse.dropWhile Char.isWhitespace).reverse

/-- The `named` list of `strip_hop_by_hop`: the Connection header value split
at commas, each token trimmed and lowercased, empties dropped. -/
def connectionTokens (headers : List (Str × Str)) : List Str :=
  match (lookupH headers "connection".data).bind headerValueToStr with
  | some cv =>
      ((List.splitOn ',' cv).map (fun tok => (trimStr tok).map lowerChar)).filter
        (fun tok => tok ≠ [])
  | none => []

/-- Embeds `strip_hop_by_hop`: remove every valid header name listed in the
Connection header, then the static hop-by-hop list. -/
def strip_hop_by_hop (headers : List (Str × Str)) : List (Str × Str) :=
  let named := connectionTokens headers
  let afterConn := named.foldl
    (fun hs name => if headerNameValid name = true then removeH hs name else hs)
    headers
  HOP_BY_HOP_HEADERS.foldl (fun hs name => removeH hs name) afterConn

/-- Embeds `strip_internal_headers`: collect the keys starting with
`x-oagw-`, then remove each. -/
def strip_internal_headers (headers : List (Str × Str)) : List (Str × Str) :=
  let to_remove := (headers.map Prod.fst).filter
    (fun k => "x-oagw-".data.isPrefixOf k)
  to_remove.foldl (fun hs name => removeH hs name) headers

/-- Embeds `sanitize_response_headers`. -/
def sanitize_response_headers (headers : List (Str × Str)) :
    List (Str × Str) :=
  strip_internal_headers (strip_hop_by_hop headers)

/-- The headers of the response `proxy_handler` builds: the sanitized
upstream headers copied in order, then the gateway's own
`x-oagw-error-source`. -/
def proxyResponseHeaders (headers : List (Str × Str)) (errorSource : Str) :
    List (Str × Str) :=
  sanitize_response_headers headers ++
    [("x-oagw-error-source".data, errorSource)]

theorem mem_removeH {hs : List (Str × Str)} {n : Str} {p : Str × Str} :
    p ∈ removeH hs n ↔ p ∈ hs ∧ p.1 ≠ n := by
  unfold removeH
  simp [List.mem_filter]

theorem mem_foldl_removeH_guard (g : Str → Bool) (names : List Str) :
    ∀ (hs : List (Str × Str)) (p : Str × Str),
    p ∈ names.foldl
        (fun h n => if g n = true then removeH h n else h) hs ↔
      p ∈ hs ∧ ∀ n ∈ names, g n = true → p.1 ≠ n := by
  induction names with
  | nil => intro hs p; simp
  | cons n names ih =>
      intro hs p
      simp only [List.foldl_cons]
      by_cases hg : g n = true
      · rw [if_pos hg, ih, mem_removeH]
        constructor
        · rintro ⟨⟨hp, hne⟩, hall⟩
          refine ⟨hp, ?_⟩
          intro n2 hn2 hg2
          rcases List.mem_cons.mp hn2 with rfl | hn3
          · exact hne
          · exact hall n2 hn3 hg2
        · rintro ⟨hp, hall⟩
          exact ⟨⟨hp, hall n (List.mem_cons_self _ _) hg⟩,
            fun n2 hn2 hg2 => hall n2 (List.mem_cons_of_mem _ hn2) hg2⟩
      · rw [if_neg hg, ih]
        constructor
        · rintro ⟨hp, hall⟩
          refine ⟨hp, ?_⟩
          intro n2 hn2 hg2
          rcases List.mem_cons.mp hn2 with rfl | hn3
          · exact absurd hg2 hg
          · exact hall n2 hn3 hg2
        · rintro ⟨hp, hall⟩
          exact ⟨hp, fun n2 hn2 hg2 => hall n2 (List.mem_cons_of_mem _ hn2) hg2⟩

theorem mem_foldl_removeH (names : List Str) :
    ∀ (hs : List (Str × Str)) (p : Str × Str),
    p ∈ names.foldl (fun h n => removeH h n) hs ↔
      p ∈ hs ∧ p.1 ∉ names := by
  induction names with
  | nil => intro hs p; simp
  | cons n names ih =>
      intro hs p
      simp only [List.foldl_cons]
      rw [ih, mem_removeH]
      constructor
      · rintro ⟨⟨hp, hne⟩, hnm⟩
        exact ⟨hp, fun hc => (List.mem_cons.mp hc).elim hne hnm⟩
      · rintro ⟨hp, hnm⟩
        exact ⟨⟨hp, fun he => hnm (he ▸ List.mem_cons_self n names)⟩,
          fun hc => hnm (List.mem_cons_of_mem _ hc)⟩

theorem mem_strip_hop_by_hop (headers : List (Str × Str)) (p : Str × Str) :
    p ∈ strip_hop_by_hop headers ↔
      p ∈ headers ∧
      (∀ tok ∈ connectionTokens headers, headerNameValid tok = true →
        p.1 ≠ tok) ∧
      p.1 ∉ HOP_BY_HOP_HEADERS := by
  show p ∈ HOP_BY_HOP_HEADERS.foldl (fun hs name => removeH hs name)
      ((connectionTokens headers).foldl
        (fun hs name =>
          if headerNameValid name = true then removeH hs name else hs)
        headers) ↔ _
  rw [mem_foldl_removeH, mem_foldl_removeH_guard]
  tauto

theorem mem_strip_internal_headers (hs : List (Str × Str)) (p : Str × Str) :
    p ∈ strip_internal_headers hs ↔
      p ∈ hs ∧ ¬("x-oagw-".data.isPrefixOf p.1 = true) := by
  show p ∈ ((hs.map Prod.fst).filter
      (fun k => "x-oagw-".data.isPrefixOf k)).foldl
      (fun h name => removeH h name) hs ↔ _
  rw [mem_foldl_removeH]
  constructor
  · rintro ⟨hp, hnr⟩
    refine ⟨hp, ?_⟩
    intro hpre
    exact hnr (List.mem_filter.mpr
      ⟨List.mem_map.mpr ⟨p, hp, rfl⟩, hpre⟩)
  · rintro ⟨hp, hnpre⟩
    exact ⟨hp, fun hmem => hnpre (List.mem_filter.mp hmem).2⟩

/-- Claim C6 (confirmed): every header of the response `proxy_handler`
forwards is either the `x-oagw-error-source` the gateway itself appends
after sanitization, or a header of the upstream response whose name is
outside the static hop-by-hop set, is not a trimmed, lowercased token named
by the upstream response's Connection header, and does not start with
`x-oagw-`. Stated for responses whose header names are valid `HeaderName`s,
the invariant of the `http` crate's header map. -/
theorem c6_response_sanitization (headers : List (Str × Str)) (es : Str)
    (hvalid : ∀ q ∈ headers, headerNameValid q.1 = true) :
    ∀ p ∈ proxyResponseHeaders headers es,
      p.1 = "x-oagw-error-source".data ∨
      (p ∈ headers ∧ p.1 ∉ HOP_BY_HOP_HEADERS ∧
        p.1 ∉ connectionTokens headers ∧
        "x-oagw-".data.isPrefixOf p.1 = false) := by
  intro p hp
  unfold proxyResponseHeaders at hp
  rcases List.mem_append.mp hp with hp1 | hp2
  · right
    obtain ⟨hp3, hnpre⟩ := (mem_strip_internal_headers _ _).mp hp1
    obtain ⟨hp4, hconn, hstat⟩ := (mem_strip_hop_by_hop _ _).mp hp3
    refine ⟨hp4, hstat, ?_, eq_false_of_ne_true hnpre⟩
    intro htok
    exact hconn p.1 htok (hvalid p hp4) rfl
  · left
    have hp3 := List.mem_singleton.mp hp2
    rw [hp3]

/-- An upstream response carrying a Connection-named custom header, a static
hop-by-hop header and an internal `x-oagw-` header next to two ordinary
ones. -/
def c6headers : List (Str × Str) :=
  [("connection".data, " X-Secret , keep-alive".data),
    ("x-secret".data, "1".data),
    ("transfer-encoding".data, "chunked".data),
    ("x-oagw-trace-id".data, "abc".data),
    ("content-type".data, "application/json".data),
    ("x-custom".data, "keep".data)]

theorem c6_response_sanitization_witness :
    ("content-type".data, "application/json".data).1 =
      "x-oagw-error-source".data ∨
    (("content-type".data, "application/json".data) ∈ c6headers ∧
      ("content-type".data, "application/json".data).1 ∉ HOP_BY_HOP_HEADERS ∧
      ("content-type".data, "application/json".data).1 ∉
        connectionTokens c6headers ∧
      "x-oagw-".data.isPrefixOf
        ("content-type".data, "application/json".data).1 = false) :=
  c6_response_sanitization c6headers "upstream".data (by decide)
    ("content-type".data, "application/json".data) (by decide)

-- ---------------------------------------------------------------------------
-- C10: the auth plugin header snapshot and rebuild
-- (src/infra/proxy/service.rs, step 4)
-- ---------------------------------------------------------------------------

/-- One valid header-name character in either case. -/
def headerNameCharCI (c : Char) : Bool := headerNameChar (lowerChar c)

/-- `HeaderName::from_bytes` on an arbitrary-case plugin map key: succeeds on
non-empty token names, normalizing to lowercase. -/
def headerNameFromBytes (s : Str) : Option Str :=
  if !(s = [] : Bool) && s.all headerNameCharCI then some (s.map lowerChar)
  else none

/-- `HeaderValue::from_str`: fails on control characters other than tab
(stated per character; non-ASCII code points occupy bytes ≥ 128, which the
check accepts). -/
def headerValueFromStr (v : Str) : Option Str :=
  if v.all (fun c => (32 ≤ c.toNat && c.toNat ≠ 127) || c.toNat = 9) then
    some v
  else none

/-- `HashMap::insert`: replace the value under an existing key, else add the
key. -/
def insertS : List (Str × Str) → Str → Str → List (Str × Str)
  | [], k, v => [(k, v)]
  | p :: rest, k, v =>
      if p.1 = k then (k, v) :: rest else p :: insertS rest k v

/-- One step of building `auth_headers`: `outbound_headers.iter()` yields
each name/value pair and `filter_map` keeps those whose value passes
`to_str`, collecting into the `HashMap` (later pairs overwrite earlier
ones). -/
def snapshotStep (m : List (Str × Str)) (p : Str × Str) :
    List (Str × Str) :=
  match headerValueToStr p.2 with
  | some sv => insertS m p.1 sv
  | none => m

/-- The `auth_headers` string map handed to the auth plugin. -/
def authSnapshot (outbound : List (Str × Str)) : List (Str × Str) :=
  outbound.foldl snapshotStep []

/-- `HeaderMap::insert`: all previous values of the name are dropped, the
new value stored (position in the map is irrelevant to the claims and is
modelled by appending). -/
def insertH (hm : List (Str × Str)) (k v : Str) : List (Str × Str) :=
  removeH hm k ++ [(k, v)]

/-- One step of the rebuild loop after the plugin ran: insert the pair when
both the header name and the value parse, else drop it silently. -/
def rebuildStep (hm : List (Str × Str)) (q : Str × Str) :
    List (Str × Str) :=
  match headerNameFromBytes q.1 with
  | some name =>
      match headerValueFromStr q.2 with
      | some val => insertH hm name val
      | none => hm
  | none => hm

/-- The outbound header map rebuilt from the plugin-mutated string map. -/
def rebuildHeaders (m : List (Str × Str)) : List (Str × Str) :=
  m.foldl rebuildStep []

theorem mem_keys_insertS {m : List (Str × Str)} {k v a : Str}
    (h : a ∈ (insertS m k v).map Prod.fst) :
    a ∈ m.map Prod.fst ∨ a = k := by
  induction m with
  | nil => unfold insertS at h; right; simpa using h
  | cons p rest ih =>
      unfold insertS at h
      by_cases hc : p.1 = k
      · rw [if_pos hc] at h
        rcases List.mem_map.mp h with ⟨q, hq, rfl⟩
        rcases List.mem_cons.mp hq with rfl | hq2
        · right; rfl
        · left; exact List.mem_map.mpr ⟨q, List.mem_cons_of_mem _ hq2, rfl⟩
      · rw [if_neg hc] at h
        rcases List.mem_map.mp h with ⟨q, hq, rfl⟩
        rcases List.mem_cons.mp hq with rfl | hq2
        · left; exact List.mem_map.mpr ⟨q, List.mem_cons_self _ _, rfl⟩
        · rcases ih (List.mem_map.mpr ⟨q, hq2, rfl⟩) with h3 | h3
          · left
            rcases List.mem_map.mp h3 with ⟨q2, hq3, he⟩
            exact List.mem_map.mpr ⟨q2, List.mem_cons_of_mem _ hq3, he⟩
          · right; exact h3

theorem nodup_keys_insertS {m : List (Str × Str)} (k v : Str)
    (h : (m.map Prod.fst).Nodup) :
    ((insertS m k v).map Prod.fst).Nodup := by
  induction m with
  | nil => simp [insertS]
  | cons p rest ih =>
      rw [List.map_cons, List.nodup_cons] at h
      unfold insertS
      by_cases hc : p.1 = k
      · rw [if_pos hc, List.map_cons, List.nodup_cons]
        exact ⟨hc ▸ h.1, h.2⟩
      · rw [if_neg hc, List.map_cons, List.nodup_cons]
        refine ⟨?_, ih h.2⟩
        intro hmem
        rcases mem_keys_insertS hmem with h3 | h3
        · exact h.1 h3
        · exact hc h3

theorem mem_keys_insertH {hm : List (Str × Str)} {k v a : Str}
    (h : a ∈ (insertH hm k v).map Prod.fst) :
    a ∈ hm.map Prod.fst ∨ a = k := by
  unfold insertH at h
  rw [List.map_append] at h
  rcases List.mem_append.mp h with h1 | h2
  · obtain ⟨p, hp, rfl⟩ := List.mem_map.mp h1
    exact .inl (List.mem_map.mpr ⟨p, (mem_removeH.mp hp).1, rfl⟩)
  · right; simpa using h2

theorem not_mem_keys_removeH (hm : List (Str × Str)) (k : Str) :
    k ∉ (removeH hm k).map Prod.fst := by
  intro h
  obtain ⟨p, hp, he⟩ := List.mem_map.mp h
  exact (mem_removeH.mp hp).2 he

theorem nodup_keys_insertH {hm : List (Str × Str)} (k v : Str)
    (h : (hm.map Prod.fst).Nodup) :
    ((insertH hm k v).map Prod.fst).Nodup := by
  unfold insertH
  rw [List.map_append, List.nodup_append]
  refine ⟨List.Nodup.sublist
    (List.Sublist.map Prod.fst (List.filter_sublist _)) h, by simp, ?_⟩
  intro a ha hb
  simp only [List.map_cons, List.map_nil, List.mem_singleton] at hb
  subst hb
  exact not_mem_keys_removeH hm a ha

theorem mem_insertH {hm : List (Str × Str)} {k v : Str} {p : Str × Str}
    (h : p ∈ insertH hm k v) : p ∈ hm ∨ p = (k, v) := by
  unfold insertH at h
  rcases List.mem_append.mp h with h1 | h2
  · exact .inl (mem_removeH.mp h1).1
  · right; simpa using h2

theorem snapshot_foldl_nodup (outbound : List (Str × Str)) :
    ∀ acc : List (Str × Str), (acc.map Prod.fst).Nodup →
      ((outbound.foldl snapshotStep acc).map Prod.fst).Nodup := by
  induction outbound with
  | nil => intro acc h; exact h
  | cons p rest ih =>
      intro acc h
      rw [List.foldl_cons]
      refine ih _ ?_
      unfold snapshotStep
      cases hv : headerValueToStr p.2 with
      | none => exact h
      | some sv => exact nodup_keys_insertS p.1 sv h

theorem snapshot_foldl_absent (k : Str) (outbound : List (Str × Str))
    (hall : ∀ p ∈ outbound, p.1 = k → headerValueToStr p.2 = none) :
    ∀ acc : List (Str × Str), k ∉ acc.map Prod.fst →
      k ∉ (outbound.foldl snapshotStep acc).map Prod.fst := by
  induction outbound with
  | nil => intro acc h; exact h
  | cons p rest ih =>
      intro acc h
      rw [List.foldl_cons]
      refine ih (fun q hq he => hall q (List.mem_cons_of_mem _ hq) he) _ ?_
      unfold snapshotStep
      cases hv : headerValueToStr p.2 with
      | none => exact h
      | some sv =>
          intro hmem
          rcases mem_keys_insertS hmem with h2 | h2
          · exact h h2
          · rw [hall p (List.mem_cons_self _ _) h2.symm] at hv
            exact Option.noConfusion hv

theorem rebuild_foldl_nodup (pm : List (Str × Str)) :
    ∀ acc : List (Str × Str), (acc.map Prod.fst).Nodup →
      ((pm.foldl rebuildStep acc).map Prod.fst).Nodup := by
  induction pm with
  | nil => intro acc h; exact h
  | cons q rest ih =>
      intro acc h
      rw [List.foldl_cons]
      refine ih _ ?_
      unfold rebuildStep
      cases hn : headerNameFromBytes q.1 with
      | none => exact h
      | some name =>
          cases hv : headerValueFromStr q.2 with
          | none => exact h
          | some val => exact nodup_keys_insertH name val h

theorem rebuild_foldl_absent (k : Str) (pm : List (Str × Str))
    (hnone : ∀ q ∈ pm, headerNameFromBytes q.1 ≠ some k) :
    ∀ acc : List (Str × Str), k ∉ acc.map Prod.fst →
      k ∉ (pm.foldl rebuildStep acc).map Prod.fst := by
  induction pm with
  | nil => intro acc h; exact h
  | cons q rest ih =>
      intro acc h
      rw [List.foldl_cons]
      refine ih (fun q2 hq2 => hnone q2 (List.mem_cons_of_mem _ hq2)) _ ?_
      unfold rebuildStep
      cases hn : headerNameFromBytes q.1 with
      | none => exact h
      | some name =>
          cases hv : headerValueFromStr q.2 with
          | none => exact h
          | some val =>
              intro hmem
              rcases mem_keys_insertH hmem with h2 | h2
              · exact h h2
              · subst h2
                exact hnone q (List.mem_cons_self _ _) hn

theorem rebuild_foldl_source (pm : List (Str × Str)) :
    ∀ acc : List (Str × Str), ∀ p ∈ pm.foldl rebuildStep acc,
      p ∈ acc ∨ ∃ q ∈ pm, headerNameFromBytes q.1 = some p.1 ∧
        headerValueFromStr q.2 = some p.2 := by
  induction pm with
  | nil => intro acc p hp; exact .inl hp
  | cons q rest ih =>
      intro acc p hp
      rw [List.foldl_cons] at hp
      rcases ih _ p hp with h1 | ⟨q2, hq2, hsrc⟩
      · unfold rebuildStep at h1
        cases hn : headerNameFromBytes q.1 with
        | none =>
            simp only [hn] at h1
            exact .inl h1
        | some name =>
            simp only [hn] at h1
            cases hv : headerValueFromStr q.2 with
            | none =>
                simp only [hv] at h1
                exact .inl h1
            | some val =>
                simp only [hv] at h1
                rcases mem_insertH h1 with h2 | h2
                · exact .inl h2
                · subst h2
                  exact .inr ⟨q, List.mem_cons_self _ _, hn, hv⟩
      · exact .inr ⟨q2, List.mem_cons_of_mem _ hq2, hsrc⟩

/-- Claim C10 (confirmed): when the upstream has auth configured and the
plugin succeeds, the outbound headers are rebuilt solely from the plugin
string map: every rebuilt pair comes from a map entry whose name and value
parse; each name carries at most one value (the map keys are unique and
`HeaderMap::insert` replaces); the `auth_headers` snapshot has unique keys,
a name all of whose values fail `to_str` is absent from it, and a name no
plugin map entry parses to is absent from the rebuilt outbound map. -/
theorem c10_auth_header_rebuild (outbound pm : List (Str × Str)) (k : Str) :
    (∀ p ∈ rebuildHeaders pm, ∃ q ∈ pm,
      headerNameFromBytes q.1 = some p.1 ∧
      headerValueFromStr q.2 = some p.2) ∧
    ((rebuildHeaders pm).map Prod.fst).Nodup ∧
    ((authSnapshot outbound).map Prod.fst).Nodup ∧
    ((∀ p ∈ outbound, p.1 = k → headerValueToStr p.2 = none) →
      k ∉ (authSnapshot outbound).map Prod.fst) ∧
    ((∀ q ∈ pm, headerNameFromBytes q.1 ≠ some k) →
      k ∉ (rebuildHeaders pm).map Prod.fst) := by
  refine ⟨?_, ?_, ?_, ?_, ?_⟩
  · intro p hp
    rcases rebuild_foldl_source pm [] p hp with h1 | h1
    · exact absurd h1 (List.not_mem_nil p)
    · exact h1
  · exact rebuild_foldl_nodup pm [] (by simp)
  · exact snapshot_foldl_nodup outbound [] (by simp)
  · intro hall
    exact snapshot_foldl_absent k outbound hall [] (by simp)
  · intro hnone
    exact rebuild_foldl_absent k pm hnone [] (by simp)

/-- An outbound map whose only `x-bin` value is not `to_str`-decodable. -/
def c10outbound : List (Str × Str) :=
  [("x-bin".data, [Char.ofNat 200]),
    ("accept".data, "application/json".data)]

/-- A plugin map re-adding only an authorization header. -/
def c10pm : List (Str × Str) :=
  [("Authorization".data, "Bearer token".data)]

theorem c10_auth_header_rebuild_witness :
    "x-bin".data ∉ (authSnapshot c10outbound).map Prod.fst ∧
    "x-bin".data ∉ (rebuildHeaders c10pm).map Prod.fst :=
  ⟨(c10_auth_header_rebuild c10outbound c10pm "x-bin".data).2.2.2.1
      (by decide),
    (c10_auth_header_rebuild c10outbound c10pm "x-bin".data).2.2.2.2
      (by decide)⟩

end Oagw
